import Mathlib

/-!
Shallow embedding of the feature/target computation engine of the
crypto-price-predict repository, together with theorems settling the
frozen claims about it.

Numeric columns are modelled over the exact rationals `ℚ`; a missing
value (pandas `NaN` used as "no value") is `none` in `Option ℚ`.  Where
a claim's truth depends on IEEE-754 special values produced by division
(infinities, `NaN` as a genuine arithmetic result), the affected
computation is embedded over the extended value type `FV` below, which
carries `±∞` and a not-a-number element with the IEEE propagation rules
for the operations used.
-/

namespace CryptoPredict

/-- Arithmetic mean of a list of rationals, `sum / length`
(the empty list yields `0 / 0 = 0`; all uses guard non-emptiness). -/
def mean (l : List ℚ) : ℚ := l.sum / l.length

/-- Sample variance with one delta degree of freedom (pandas default
`ddof=1`): `Σ (x - mean)² / (n - 1)`.  Only used on windows of length
at least two. -/
def sampleVar (l : List ℚ) : ℚ :=
  (l.map (fun x => (x - mean l) ^ 2)).sum / ((l.length : ℚ) - 1)

/-- The trailing window of (up to) `p` elements of `xs` ending at index
`t`: elements at indices `t+1-p .. t`.  This is the window pandas
`rolling(window=p)` aggregates at position `t`. -/
def window (p : Nat) (xs : List ℚ) (t : Nat) : List ℚ :=
  (xs.take (t + 1)).drop (t + 1 - p)

/-- `rolling(window=p, min_periods=m).mean()` at position `t`: the mean
of the trailing window when `t` is in range and at least `m`
observations are available (`min (t+1) p` of them), else missing. -/
def rollingMeanAt (p m : Nat) (xs : List ℚ) (t : Nat) : Option ℚ :=
  if t < xs.length ∧ m ≤ min (t + 1) p then some (mean (window p xs t)) else none

/-- The whole column produced by `rolling(window=p, min_periods=m).mean()`. -/
def rollingMeanList (p m : Nat) (xs : List ℚ) : List (Option ℚ) :=
  (List.range xs.length).map (fun t => rollingMeanAt p m xs t)

/-- `rolling(window=p, min_periods=m).std()` at position `t`, up to the
final square root: pandas computes the `ddof=1` standard deviation,
which is `NaN` unless at least `max m 2` observations are available
(with a single observation `0/0 = NaN`).  We expose the variance; the
square root is applied by an abstract function where a column needs it,
since no claim depends on its numeric value. -/
def rollingVarAt (p m : Nat) (xs : List ℚ) (t : Nat) : Option ℚ :=
  if t < xs.length ∧ m ≤ min (t + 1) p ∧ 2 ≤ min (t + 1) p then
    some (sampleVar (window p xs t)) else none

/-- The column of `rolling(window=p, min_periods=m).std()` values with
an abstract square-root function `sq` applied to each defined variance. -/
def rollingStdList (sq : ℚ → ℚ) (p m : Nat) (xs : List ℚ) : List (Option ℚ) :=
  (List.range xs.length).map (fun t => (rollingVarAt p m xs t).map sq)

/-- `rolling(window=p).min()` at position `t` (strict `min_periods = p`). -/
def rollingMinAt (p : Nat) (xs : List ℚ) (t : Nat) : Option ℚ :=
  if t < xs.length ∧ p ≤ t + 1 ∧ 1 ≤ p then
    some ((window p xs t).foldr min (window p xs t).headI) else none

/-- `rolling(window=p).max()` at position `t` (strict `min_periods = p`). -/
def rollingMaxAt (p : Nat) (xs : List ℚ) (t : Nat) : Option ℚ :=
  if t < xs.length ∧ p ≤ t + 1 ∧ 1 ≤ p then
    some ((window p xs t).foldr max (window p xs t).headI) else none

/-- Recursive exponentially-weighted mean continuation: given the
previous EW value, fold the remaining observations with
`e ← (1-a)·e + a·x` (pandas `ewm(..., adjust=False)`). -/
def ewmaFrom (a : ℚ) : ℚ → List ℚ → List ℚ
  | _, [] => []
  | prev, x :: rest =>
    ((1 - a) * prev + a * x) :: ewmaFrom a ((1 - a) * prev + a * x) rest

/-- `ewm(adjust=False).mean()` over a whole series: seeded at the first
observation, then the recursion `e_t = (1-a)·e_{t-1} + a·x_t`. -/
def ewmaList (a : ℚ) : List ℚ → List ℚ
  | [] => []
  | x :: rest => x :: ewmaFrom a x rest

/-- `ewm(span=s, adjust=False).mean()`: smoothing factor `α = 2/(s+1)`. -/
def emaSpanList (s : Nat) (xs : List ℚ) : List ℚ :=
  ewmaList (2 / ((s : ℚ) + 1)) xs

/-- Continuation of `gains`: per-row non-negative gain
`delta.where(delta > 0, 0)` given the previous close. -/
def gainsFrom : ℚ → List ℚ → List ℚ
  | _, [] => []
  | prev, x :: rest => (if prev < x then x - prev else 0) :: gainsFrom x rest

/-- The gain series of `calculate_rsi`: first delta is `NaN`, and
`NaN.where(NaN > 0, 0)` is `0`, so the series starts with `0`. -/
def gains : List ℚ → List ℚ
  | [] => []
  | _ :: [] => [0]
  | x :: y :: rest => 0 :: gainsFrom x (y :: rest)

/-- Continuation of `losses`: per-row non-negative loss
`(-delta).where(delta < 0, 0)` given the previous close. -/
def lossesFrom : ℚ → List ℚ → List ℚ
  | _, [] => []
  | prev, x :: rest => (if x < prev then prev - x else 0) :: lossesFrom x rest

/-- The loss series of `calculate_rsi` (starts with `0` like `gains`). -/
def losses : List ℚ → List ℚ
  | [] => []
  | _ :: [] => [0]
  | x :: y :: rest => 0 :: lossesFrom x (y :: rest)

/-- `pct_change(periods=p)` at position `t`: `x_t / x_{t-p} - 1`, or
missing while fewer than `p` prior rows exist. -/
def pctChangeAt (p : Nat) (xs : List ℚ) (t : Nat) : Option ℚ :=
  if t < xs.length ∧ p ≤ t ∧ 1 ≤ p then
    some (xs.getD t 0 / xs.getD (t - p) 0 - 1) else none

/-- `shift(-h)` of a series: index `t` receives the value at `t+h`,
and the last `h` positions are missing. -/
def shiftNegList (h : Nat) (xs : List ℚ) : List (Option ℚ) :=
  (List.range xs.length).map
    (fun t => if t + h < xs.length then some (xs.getD (t + h) 0) else none)

/-- IEEE-754-style extended value: a finite rational, `+∞`, `-∞`, or
not-a-number.  Used where a claim depends on float division producing
infinities or `NaN` (the RSI quotient and the stochastic oscillator). -/
inductive FV : Type
  | num : ℚ → FV
  | pinf : FV
  | ninf : FV
  | nan : FV
deriving DecidableEq

namespace FV

/-- IEEE addition on extended values. -/
def add : FV → FV → FV
  | num a, num b => num (a + b)
  | num _, pinf => pinf
  | pinf, num _ => pinf
  | pinf, pinf => pinf
  | num _, ninf => ninf
  | ninf, num _ => ninf
  | ninf, ninf => ninf
  | pinf, ninf => nan
  | ninf, pinf => nan
  | nan, _ => nan
  | _, nan => nan

/-- IEEE negation on extended values. -/
def neg : FV → FV
  | num a => num (-a)
  | pinf => ninf
  | ninf => pinf
  | nan => nan

/-- IEEE subtraction on extended values. -/
def sub (x y : FV) : FV := add x (neg y)

/-- IEEE multiplication on extended values (`0 × ∞ = NaN`). -/
def mul : FV → FV → FV
  | num a, num b => num (a * b)
  | num a, pinf => if a = 0 then nan else if 0 < a then pinf else ninf
  | pinf, num b => if b = 0 then nan else if 0 < b then pinf else ninf
  | num a, ninf => if a = 0 then nan else if 0 < a then ninf else pinf
  | ninf, num b => if b = 0 then nan else if 0 < b then ninf else pinf
  | pinf, pinf => pinf
  | ninf, ninf => pinf
  | pinf, ninf => ninf
  | ninf, pinf => ninf
  | nan, _ => nan
  | _, nan => nan

/-- IEEE division on extended values: a nonzero finite number divided
by zero gives a signed infinity, `0/0` gives `NaN`, finite over
infinite gives `0` (rationals carry no signed zero; no claim depends on
the sign of a zero). -/
def div : FV → FV → FV
  | num a, num b =>
    if b = 0 then (if a = 0 then nan else if 0 < a then pinf else ninf)
    else num (a / b)
  | num _, pinf => num 0
  | num _, ninf => num 0
  | pinf, num b => if 0 ≤ b then pinf else ninf
  | ninf, num b => if 0 ≤ b then ninf else pinf
  | pinf, pinf => nan
  | pinf, ninf => nan
  | ninf, pinf => nan
  | ninf, ninf => nan
  | nan, _ => nan
  | _, nan => nan

end FV

/-- The RSI of `TechnicalAnalysis.calculate_rsi` at position `t`:
average gain and average loss are strict rolling means of the gain and
loss series over `p` rows; then `RS = avg_gain / avg_loss` and
`RSI = 100 - 100/(1 + RS)` in float arithmetic (so `avg_loss = 0` with
positive `avg_gain` drives `RS` to `+∞` and the RSI to `100`, while
`0/0` propagates `NaN`).  Missing rolling means give `NaN`. -/
def rsiAt (p : Nat) (xs : List ℚ) (t : Nat) : FV :=
  match rollingMeanAt p p (gains xs) t, rollingMeanAt p p (losses xs) t with
  | some g, some l =>
    FV.sub (FV.num 100)
      (FV.div (FV.num 100) (FV.add (FV.num 1) (FV.div (FV.num g) (FV.num l))))
  | _, _ => FV.nan

/-- The MACD line: `EMA(close, fast) - EMA(close, slow)` pointwise. -/
def macdList (fast slow : Nat) (xs : List ℚ) : List ℚ :=
  List.zipWith (fun a b => a - b) (emaSpanList fast xs) (emaSpanList slow xs)

/-- The MACD signal line of one series: `EMA(MACD, signal)`. -/
def macdSignalList (fast slow sg : Nat) (xs : List ℚ) : List ℚ :=
  emaSpanList sg (macdList fast slow xs)

/-- The MACD histogram of one series: `MACD - Signal` pointwise. -/
def macdHistList (fast slow sg : Nat) (xs : List ℚ) : List ℚ :=
  List.zipWith (fun a b => a - b) (macdList fast slow xs)
    (macdSignalList fast slow sg xs)

/-- Stochastic `%K` at position `t`
(`calculate_stochastic_oscillator`): float arithmetic
`100 × (close - rolling_min(low, k)) / (rolling_max(high, k) -
rolling_min(low, k))`, missing while the strict rolling extrema are
missing. -/
def stochKAt (kp : Nat) (closes highs lows : List ℚ) (t : Nat) : Option FV :=
  match rollingMinAt kp lows t, rollingMaxAt kp highs t with
  | some lo, some hi =>
    some (FV.mul (FV.num 100)
      (FV.div (FV.num (closes.getD t 0 - lo)) (FV.num (hi - lo))))
  | _, _ => none

/-- The `%K` column over a series triple. -/
def stochKList (kp : Nat) (closes highs lows : List ℚ) : List (Option FV) :=
  (List.range closes.length).map (fun t => stochKAt kp closes highs lows t)

/-- Mean of a window of `%K` values in float arithmetic: a missing
(`NaN`) entry poisons the mean. -/
def fvMean (l : List (Option FV)) : FV :=
  FV.div (l.foldr (fun o acc => FV.add (o.getD FV.nan) acc) (FV.num 0))
    (FV.num l.length)

/-- Stochastic `%D` at position `t`: the strict rolling mean of `%K`
over `d` rows (float arithmetic over the `%K` values). -/
def stochDAt (kp d : Nat) (closes highs lows : List ℚ) (t : Nat) : Option FV :=
  if t < closes.length ∧ d ≤ t + 1 ∧ 1 ≤ d then
    some (fvMean (((stochKList kp closes highs lows).take (t + 1)).drop
      (t + 1 - d)))
  else none

/-- A row of the multi-instrument price table handed to
`TechnicalIndicators.add_all_indicators` and
`TargetGenerator.add_targets`: the instrument key and the close price
(the only columns those computations read). -/
structure PRow : Type where
  symbol : String
  close : ℚ
deriving DecidableEq

/-- The close series of instrument `s` inside a table: the closes of
the rows with symbol `s`, in table order (what pandas `groupby` hands
to the per-group function). -/
def seriesOf (s : String) (rows : List PRow) : List ℚ :=
  (rows.filter (fun r => r.symbol = s)).map (fun r => r.close)

/-- Worker for `groupbyTransform`: walks the table carrying, for each
symbol, how many of its rows have already been emitted; each row
receives the entry of `f` applied to its group's full series at the
row's position within the group. -/
def gbtAux {α : Type} (dflt : α) (f : List ℚ → List α) (full : String → List ℚ) :
    (String → Nat) → List PRow → List α
  | _, [] => []
  | cnt, r :: rest =>
    (f (full r.symbol)).getD (cnt r.symbol) dflt ::
      gbtAux dflt f full
        (fun s => if s = r.symbol then cnt s + 1 else cnt s) rest

/-- `df.groupby('symbol')['close'].transform(f)`: the column whose
entry at each row is `f` applied to that row's whole group series,
read off at the row's position within the group. -/
def groupbyTransform {α : Type} (dflt : α) (f : List ℚ → List α)
    (rows : List PRow) : List α :=
  gbtAux dflt f (fun s => seriesOf s rows) (fun _ => 0) rows

/-- Restriction of a table-aligned column to the rows of instrument
`s`, in order ("then restricting to one instrument's rows"). -/
def restrictCol {α : Type} (rows : List PRow) (col : List α) (s : String) :
    List α :=
  ((rows.zip col).filter (fun p => p.1.symbol = s)).map (fun p => p.2)

/-- The `ma_p` column of `add_all_indicators`: grouped
`rolling(window=p, min_periods=1).mean()` of close. -/
def maColumn (p : Nat) (rows : List PRow) : List (Option ℚ) :=
  groupbyTransform none (rollingMeanList p 1) rows

/-- A grouped `ewm(span=s, adjust=False).mean()` column of close
(`exp1`/`exp2` of `add_all_indicators`). -/
def emaColumn (s : Nat) (rows : List PRow) : List ℚ :=
  groupbyTransform 0 (emaSpanList s) rows

/-- The `macd` column of `add_all_indicators`: `exp1 - exp2` pointwise
over the table. -/
def macdColumn (fast slow : Nat) (rows : List PRow) : List ℚ :=
  List.zipWith (fun a b => a - b) (emaColumn fast rows) (emaColumn slow rows)

/-- The `macd_signal` column of `add_all_indicators`: the code computes
`macd.transform(lambda x: x.ewm(span=signal, adjust=False).mean())` on
the plain `macd` Series — a single EW pass over the whole combined
column, with no grouping by symbol. -/
def macdSignalColumn (fast slow sg : Nat) (rows : List PRow) : List ℚ :=
  ewmaList (2 / ((sg : ℚ) + 1)) (macdColumn fast slow rows)

/-- The `bb_middle` column: grouped
`rolling(window=20, min_periods=1).mean()` of close. -/
def bbMiddleColumn (rows : List PRow) : List (Option ℚ) :=
  groupbyTransform none (rollingMeanList 20 1) rows

/-- The `bb_std` column: grouped
`rolling(window=20, min_periods=1).std()` of close, square root
abstract as in `rollingStdList`. -/
def bbStdColumn (sq : ℚ → ℚ) (rows : List PRow) : List (Option ℚ) :=
  groupbyTransform none (rollingStdList sq 20 1) rows

/-- The `bb_upper` column: `bb_middle + bb_std * 2` with missing
values propagating. -/
def bbUpperColumn (sq : ℚ → ℚ) (rows : List PRow) : List (Option ℚ) :=
  List.zipWith
    (fun mo so => match mo, so with
      | some m, some sd => some (m + sd * 2)
      | _, _ => none)
    (bbMiddleColumn rows) (bbStdColumn sq rows)

/-- The `pct_change(periods=p)` column of one series. -/
def pctChangeList (p : Nat) (xs : List ℚ) : List (Option ℚ) :=
  (List.range xs.length).map (fun t => pctChangeAt p xs t)

/-- The `momentum` column of `add_all_indicators`: grouped
`pct_change(periods=10)` of close. -/
def momentumColumn (rows : List PRow) : List (Option ℚ) :=
  groupbyTransform none (pctChangeList 10) rows

/-- The `future_price_{h}d` column of `TargetGenerator.add_targets`:
grouped `shift(-h)` of close. -/
def futureColumn (h : Nat) (rows : List PRow) : List (Option ℚ) :=
  groupbyTransform none (shiftNegList h) rows

/-- The raw close column of the table. -/
def closeColumn (rows : List PRow) : List ℚ :=
  rows.map (fun r => r.close)

/-- The `return_{h}d` column: `(future_price - close) / close`, missing
where the future price is missing.  (Close prices are nonzero in every
scenario a claim evaluates, so exact rational division is faithful.) -/
def returnColumn (h : Nat) (rows : List PRow) : List (Option ℚ) :=
  List.zipWith (fun fo c => fo.map (fun f => (f - c) / c))
    (futureColumn h rows) (closeColumn rows)

/-- The `direction_{h}d` column: `(future_price > close).astype(int)`.
A missing future price compares as not-greater, so `astype(int)` turns
it into the integer `0` — the column holds plain integers and has no
missing values. -/
def directionColumn (h : Nat) (rows : List PRow) : List ℤ :=
  List.zipWith
    (fun fo c => match fo with
      | some f => if c < f then (1 : ℤ) else 0
      | none => 0)
    (futureColumn h rows) (closeColumn rows)

/-- `TechnicalAnalysis.calculate_sma`:
`close.rolling(window=period).mean()` with the pandas default
`min_periods = window` (the strict policy). -/
def smaList (period : Nat) (xs : List ℚ) : List (Option ℚ) :=
  rollingMeanList period period xs

/-- A row of the table handed to `DataProcessor.clean_data`: the
identifier columns, the raw OHLCV columns (nullable — the raw feed may
have gaps), and the remaining "technical" columns (indicators and
targets), kept as a positional list so that the claims hold for any
number of them. -/
structure CRow : Type where
  symbol : String
  date : Nat
  opn : Option ℚ
  high : Option ℚ
  low : Option ℚ
  close : Option ℚ
  volume : Option ℚ
  tech : List (Option ℚ)
deriving DecidableEq, Inhabited

/-- The row filter `df[df['close'] > 0]`: a null close compares as
not-greater and the row is dropped. -/
def closeValid (r : CRow) : Prop :=
  match r.close with
  | some c => 0 < c
  | none => False

instance (r : CRow) : Decidable (closeValid r) := by
  unfold closeValid
  cases r.close
  all_goals simp only []
  · exact inferInstance
  · exact inferInstance

/-- The row filter `df[df['volume'] > 0]`: note the code demands
strictly positive volume, so `volume = 0` rows are dropped too. -/
def volumeValid (r : CRow) : Prop :=
  match r.volume with
  | some v => 0 < v
  | none => False

instance (r : CRow) : Decidable (volumeValid r) := by
  unfold volumeValid
  cases r.volume
  all_goals simp only []
  · exact inferInstance
  · exact inferInstance

/-- The price/volume filter stage of `clean_data` (its two successive
row filters). -/
def filterStage (df : List CRow) : List CRow :=
  (df.filter (fun r => closeValid r)).filter (fun r => volumeValid r)

/-- One forward-fill step of a single cell: a present value stays and
becomes the new carried value; a missing one is replaced by the carried
value. -/
def fillStep (last cur : Option ℚ) : Option ℚ :=
  match cur with
  | some v => some v
  | none => last

/-- Forward-fill one row's technical cells against the carried
last-seen values (positionally, one carried value per column; before
any row is seen there is nothing to carry). -/
def fillRow : List (Option ℚ) → List (Option ℚ) → List (Option ℚ)
  | _, [] => []
  | [], c :: cs => c :: fillRow [] cs
  | l :: ls, c :: cs => fillStep l c :: fillRow ls cs

/-- `df[technical_columns].fillna(method='ffill')`: a single
column-wise forward fill over the whole table in row order — the code
applies it to the full dataframe with no grouping by symbol. -/
def ffillRows : List (Option ℚ) → List CRow → List CRow
  | _, [] => []
  | lasts, r :: rest =>
    { r with tech := fillRow lasts r.tech } ::
      ffillRows (fillRow lasts r.tech) rest

/-- A row every one of whose nullable cells is present —
`df.dropna()` keeps exactly these rows. -/
def rowComplete (r : CRow) : Prop :=
  r.opn.isSome ∧ r.high.isSome ∧ r.low.isSome ∧ r.close.isSome ∧
    r.volume.isSome ∧ ∀ c ∈ r.tech, c.isSome

instance (r : CRow) : Decidable (rowComplete r) := by
  unfold rowComplete
  exact inferInstance

/-- `DataProcessor.clean_data`: drop rows without strictly positive
close and volume, forward-fill the technical columns over the whole
remaining table, then drop every row that still has a missing value. -/
def cleanData (df : List CRow) : List CRow :=
  (ffillRows [] (filterStage df)).filter (fun r => rowComplete r)

/-- The batch loop of `main` over the selected instruments:
`process_single_crypto` catches an error only to log it and re-raise
(`raise` on line 149), and the loop body has no per-iteration handler,
so an error propagates out of the loop.  Returns the instruments fully
processed and the error that aborted the batch, if any. -/
def runBatch (f : String → Except String Unit) :
    List String → List String × Option String
  | [] => ([], none)
  | s :: rest =>
    match f s with
    | Except.ok _ =>
      ((runBatch f rest).1.cons s, (runBatch f rest).2)
    | Except.error e => ([], some e)

/-- The Bollinger upper band computed on a single series:
`rolling-mean + rolling-std * 2` with missing values propagating (what
`add_all_indicators` would produce for a table holding one
instrument). -/
def bbUpperList (sq : ℚ → ℚ) (xs : List ℚ) : List (Option ℚ) :=
  List.zipWith
    (fun mo so => match mo, so with
      | some m, some sd => some (m + sd * 2)
      | _, _ => none)
    (rollingMeanList 20 1 xs) (rollingStdList sq 20 1 xs)

/-- A two-instrument table for exercising `clean_data`: instrument "A"
has a present technical value, instrument "B" follows with a missing
one in the same column. -/
def dfCross : List CRow :=
  [⟨"A", 0, some 1, some 1, some 1, some 1, some 1, [some 5]⟩,
   ⟨"B", 1, some 1, some 1, some 1, some 1, some 1, [none]⟩]

/-- The single-instrument table obtained by running the target
generator for horizon `h` over a close series and keeping one
technical column, the `return_{h}d` target: row `t` carries the close
at `t` and the target cell produced by `returnColumn` on the
corresponding one-symbol price table. -/
def targetTable (h : Nat) (closes : List ℚ) : List CRow :=
  (List.range closes.length).map (fun t =>
    ⟨"A", t, some 1, some 1, some 1, some (closes.getD t 0), some 1,
      [(returnColumn h (closes.map (fun c => PRow.mk "A" c))).getD t none]⟩)

/-! ### Basic length and indexing lemmas -/

lemma getD_map_range {α : Type} (g : Nat → α) (n t : Nat) (d : α) (ht : t < n) :
    ((List.range n).map g).getD t d = g t := by
  rw [List.getD_eq_getElem _ _ (by simpa using ht)]
  simp

lemma range_map_getD {α : Type} (l : List α) (d : α) :
    (List.range l.length).map (fun j => l.getD j d) = l := by
  refine List.ext_getElem (by simp) ?_
  intro i h1 h2
  simp [List.getD_eq_getElem l d h2, List.getElem?_eq_getElem h2]

lemma getD_take_eq {α : Type} (l : List α) (n t : Nat) (d : α) (ht : t < n) :
    (l.take n).getD t d = l.getD t d := by
  induction l generalizing n t with
  | nil => simp
  | cons a l ih =>
    cases n with
    | zero => omega
    | succ n =>
      cases t with
      | zero => simp
      | succ t =>
        rw [List.take_succ_cons, List.getD_cons_succ, List.getD_cons_succ]
        exact ih n t (by omega)

lemma getD_eq_of_take_eq {α : Type} (l1 l2 : List α) (n t : Nat) (d : α)
    (h : l1.take n = l2.take n) (ht : t < n) : l1.getD t d = l2.getD t d := by
  rw [← getD_take_eq l1 n t d ht, h, getD_take_eq l2 n t d ht]

lemma length_of_take_eq (xs ys : List ℚ) (t : Nat) (hx : t < xs.length)
    (h : xs.take (t + 1) = ys.take (t + 1)) : t < ys.length := by
  have hlen := congrArg List.length h
  simp only [List.length_take] at hlen
  omega

lemma length_ewmaFrom (a : ℚ) : ∀ (l : List ℚ) (p : ℚ),
    (ewmaFrom a p l).length = l.length
  | [], _ => rfl
  | x :: l, p => by
    rw [ewmaFrom, List.length_cons, List.length_cons, length_ewmaFrom a l]

lemma length_ewmaList (a : ℚ) (l : List ℚ) : (ewmaList a l).length = l.length := by
  cases l with
  | nil => rfl
  | cons x rest =>
    rw [ewmaList, List.length_cons, List.length_cons, length_ewmaFrom]

lemma length_emaSpanList (s : Nat) (xs : List ℚ) :
    (emaSpanList s xs).length = xs.length := length_ewmaList _ xs

lemma length_rollingMeanList (p m : Nat) (xs : List ℚ) :
    (rollingMeanList p m xs).length = xs.length := by
  simp [rollingMeanList]

lemma length_rollingStdList (sq : ℚ → ℚ) (p m : Nat) (xs : List ℚ) :
    (rollingStdList sq p m xs).length = xs.length := by
  simp [rollingStdList]

lemma length_shiftNegList (h : Nat) (xs : List ℚ) :
    (shiftNegList h xs).length = xs.length := by
  simp [shiftNegList]

lemma length_pctChangeList (p : Nat) (xs : List ℚ) :
    (pctChangeList p xs).length = xs.length := by
  simp [pctChangeList]

lemma length_macdList (fast slow : Nat) (xs : List ℚ) :
    (macdList fast slow xs).length = xs.length := by
  rw [macdList, List.length_zipWith, length_emaSpanList, length_emaSpanList]
  omega

lemma length_gbtAux {α : Type} (dflt : α) (f : List ℚ → List α)
    (full : String → List ℚ) : ∀ (rows : List PRow) (cnt : String → Nat),
    (gbtAux dflt f full cnt rows).length = rows.length
  | [], _ => rfl
  | r :: rest, cnt => by
    rw [gbtAux, List.length_cons, List.length_cons, length_gbtAux dflt f full rest]

lemma length_groupbyTransform {α : Type} (dflt : α) (f : List ℚ → List α)
    (rows : List PRow) : (groupbyTransform dflt f rows).length = rows.length :=
  length_gbtAux dflt f _ rows _

/-! ### Restriction of grouped columns to one instrument -/

lemma restrictCol_cons {α : Type} (r : PRow) (rows : List PRow) (v : α)
    (col : List α) (s : String) :
    restrictCol (r :: rows) (v :: col) s =
      if r.symbol = s then v :: restrictCol rows col s
      else restrictCol rows col s := by
  unfold restrictCol
  by_cases h : r.symbol = s <;> simp [h, List.filter_cons]

lemma seriesOf_cons (s : String) (r : PRow) (rows : List PRow) :
    seriesOf s (r :: rows) =
      if r.symbol = s then r.close :: seriesOf s rows else seriesOf s rows := by
  unfold seriesOf
  by_cases h : r.symbol = s <;> simp [h, List.filter_cons]

lemma gbt_restrict {α : Type} (dflt : α) (f : List ℚ → List α)
    (full : String → List ℚ) (s : String) :
    ∀ (rows : List PRow) (cnt : String → Nat),
      restrictCol rows (gbtAux dflt f full cnt rows) s =
        (List.range ((rows.filter (fun r => r.symbol = s)).length)).map
          (fun j => (f (full s)).getD (cnt s + j) dflt)
  | [], cnt => by simp [restrictCol, gbtAux]
  | r :: rest, cnt => by
    rw [gbtAux, restrictCol_cons]
    by_cases h : r.symbol = s
    · rw [if_pos h, gbt_restrict dflt f full s rest]
      rw [if_pos (show s = r.symbol from h.symm)]
      have hfil : (r :: rest).filter (fun x => decide (x.symbol = s))
          = r :: rest.filter (fun x => decide (x.symbol = s)) := by
        simp [List.filter_cons, h]
      rw [hfil, List.length_cons, List.range_succ_eq_map, List.map_cons,
        List.map_map]
      rw [h]
      have htail : List.map ((fun j => (f (full s)).getD (cnt s + j) dflt)
              ∘ Nat.succ)
            (List.range ((rest.filter (fun x => decide (x.symbol = s))).length))
          = List.map (fun j => (f (full s)).getD (cnt s + 1 + j) dflt)
            (List.range
              ((rest.filter (fun x => decide (x.symbol = s))).length)) := by
        refine List.map_congr_left ?_
        intro j _
        show (f (full s)).getD (cnt s + Nat.succ j) dflt = _
        rw [show cnt s + Nat.succ j = cnt s + 1 + j from by omega]
      rw [htail]
      rfl
    · rw [if_neg h, gbt_restrict dflt f full s rest]
      rw [if_neg (show ¬s = r.symbol from fun hs => h hs.symm)]
      have hfil : (r :: rest).filter (fun x => decide (x.symbol = s))
          = rest.filter (fun x => decide (x.symbol = s)) := by
        simp [List.filter_cons, h]
      rw [hfil]

/-- Group isolation of `groupby('symbol')['close'].transform(f)` for any
length-preserving per-group function `f`: restricting the transformed
column to one instrument's rows recovers `f` of that instrument's own
series. -/
lemma groupbyTransform_restrict {α : Type} (dflt : α) (f : List ℚ → List α)
    (hf : ∀ xs, (f xs).length = xs.length) (rows : List PRow) (s : String) :
    restrictCol rows (groupbyTransform dflt f rows) s = f (seriesOf s rows) := by
  rw [groupbyTransform, gbt_restrict]
  have hlen : ((rows.filter (fun r => r.symbol = s)).length)
      = (f (seriesOf s rows)).length := by
    rw [hf, seriesOf, List.length_map]
  rw [hlen]
  have h0 : (List.range (f (seriesOf s rows)).length).map
      (fun j => (f (seriesOf s rows)).getD (0 + j) dflt)
      = (List.range (f (seriesOf s rows)).length).map
        (fun j => (f (seriesOf s rows)).getD j dflt) := by
    refine List.map_congr_left ?_
    intro j _
    rw [Nat.zero_add]
  rw [h0]
  exact range_map_getD (f (seriesOf s rows)) dflt

lemma restrictCol_zipWith {α β γ : Type} (g : α → β → γ) (s : String) :
    ∀ (rows : List PRow) (c1 : List α) (c2 : List β),
      rows.length ≤ c1.length → rows.length ≤ c2.length →
      restrictCol rows (List.zipWith g c1 c2) s =
        List.zipWith g (restrictCol rows c1 s) (restrictCol rows c2 s) := by
  intro rows
  induction rows with
  | nil => intro c1 c2 _ _; simp [restrictCol]
  | cons r rest ih =>
    intro c1 c2 h1 h2
    cases c1 with
    | nil => simp at h1
    | cons a c1 =>
      cases c2 with
      | nil => simp at h2
      | cons b c2 =>
        rw [List.zipWith_cons_cons, restrictCol_cons, restrictCol_cons,
          restrictCol_cons]
        by_cases h : r.symbol = s
        · rw [if_pos h, if_pos h, if_pos h, List.zipWith_cons_cons,
            ih c1 c2 (by simpa using h1) (by simpa using h2)]
        · rw [if_neg h, if_neg h, if_neg h,
            ih c1 c2 (by simpa using h1) (by simpa using h2)]

lemma restrictCol_closeColumn : ∀ (rows : List PRow) (s : String),
    restrictCol rows (closeColumn rows) s = seriesOf s rows
  | [], s => by simp [restrictCol, closeColumn, seriesOf]
  | r :: rest, s => by
    rw [closeColumn, List.map_cons, restrictCol_cons, seriesOf_cons,
      ← closeColumn, restrictCol_closeColumn rest s]

/-! ### Causality: the list computations commute with `take` -/

lemma ewmaFrom_take (a : ℚ) : ∀ (l : List ℚ) (p : ℚ) (n : Nat),
    ewmaFrom a p (l.take n) = (ewmaFrom a p l).take n
  | [], _, n => by simp [ewmaFrom]
  | _ :: _, _, 0 => by simp [ewmaFrom]
  | x :: l, p, n + 1 => by
    rw [List.take_succ_cons, ewmaFrom, ewmaFrom, List.take_succ_cons,
      ewmaFrom_take a l _ n]

lemma ewmaList_take (a : ℚ) : ∀ (l : List ℚ) (n : Nat),
    ewmaList a (l.take n) = (ewmaList a l).take n
  | [], n => by simp [ewmaList]
  | _ :: _, 0 => by simp [ewmaList]
  | x :: l, n + 1 => by
    rw [List.take_succ_cons, ewmaList, ewmaList, List.take_succ_cons,
      ewmaFrom_take a l x n]

lemma emaSpanList_take (s : Nat) (l : List ℚ) (n : Nat) :
    emaSpanList s (l.take n) = (emaSpanList s l).take n :=
  ewmaList_take _ l n

lemma macdList_take (fast slow : Nat) (l : List ℚ) (n : Nat) :
    macdList fast slow (l.take n) = (macdList fast slow l).take n := by
  rw [macdList, macdList, emaSpanList_take, emaSpanList_take,
    ← List.take_zipWith]

lemma macdSignalList_take (fast slow sg : Nat) (l : List ℚ) (n : Nat) :
    macdSignalList fast slow sg (l.take n)
      = (macdSignalList fast slow sg l).take n := by
  rw [macdSignalList, macdSignalList, macdList_take]
  exact ewmaList_take _ _ n

lemma gainsFrom_take : ∀ (l : List ℚ) (p : ℚ) (n : Nat),
    gainsFrom p (l.take n) = (gainsFrom p l).take n
  | [], _, n => by simp [gainsFrom]
  | _ :: _, _, 0 => by simp [gainsFrom]
  | x :: l, p, n + 1 => by
    rw [List.take_succ_cons, gainsFrom, gainsFrom, List.take_succ_cons,
      gainsFrom_take l x n]

lemma lossesFrom_take : ∀ (l : List ℚ) (p : ℚ) (n : Nat),
    lossesFrom p (l.take n) = (lossesFrom p l).take n
  | [], _, n => by simp [lossesFrom]
  | _ :: _, _, 0 => by simp [lossesFrom]
  | x :: l, p, n + 1 => by
    rw [List.take_succ_cons, lossesFrom, lossesFrom, List.take_succ_cons,
      lossesFrom_take l x n]

lemma gains_take : ∀ (l : List ℚ) (n : Nat), gains (l.take n) = (gains l).take n
  | [], n => by simp [gains]
  | [x], n => by
    cases n with
    | zero => simp [gains]
    | succ n => simp [gains]
  | x :: y :: l, 0 => by simp [gains]
  | x :: y :: l, 1 => by simp [gains, gainsFrom]
  | x :: y :: l, n + 2 => by
    rw [List.take_succ_cons, List.take_succ_cons, gains, gains,
      ← List.take_succ_cons, gainsFrom_take (y :: l) x (n + 1),
      List.take_succ_cons]

lemma losses_take : ∀ (l : List ℚ) (n : Nat),
    losses (l.take n) = (losses l).take n
  | [], n => by simp [losses]
  | [x], n => by
    cases n with
    | zero => simp [losses]
    | succ n => simp [losses]
  | x :: y :: l, 0 => by simp [losses]
  | x :: y :: l, 1 => by simp [losses, lossesFrom]
  | x :: y :: l, n + 2 => by
    rw [List.take_succ_cons, List.take_succ_cons, losses, losses,
      ← List.take_succ_cons, lossesFrom_take (y :: l) x (n + 1),
      List.take_succ_cons]

lemma length_gainsFrom : ∀ (l : List ℚ) (p : ℚ),
    (gainsFrom p l).length = l.length
  | [], _ => rfl
  | x :: l, p => by
    rw [gainsFrom, List.length_cons, List.length_cons, length_gainsFrom l x]

lemma length_lossesFrom : ∀ (l : List ℚ) (p : ℚ),
    (lossesFrom p l).length = l.length
  | [], _ => rfl
  | x :: l, p => by
    rw [lossesFrom, List.length_cons, List.length_cons, length_lossesFrom l x]

lemma length_gains : ∀ (l : List ℚ), (gains l).length = l.length
  | [] => rfl
  | [_] => rfl
  | x :: y :: l => by
    rw [gains, List.length_cons, List.length_cons, List.length_cons,
      length_gainsFrom (y :: l) x, List.length_cons]

lemma length_losses : ∀ (l : List ℚ), (losses l).length = l.length
  | [] => rfl
  | [_] => rfl
  | x :: y :: l => by
    rw [losses, List.length_cons, List.length_cons, List.length_cons,
      length_lossesFrom (y :: l) x, List.length_cons]

/-! ### Per-index congruence: a cell only reads rows up to its index -/

lemma window_congr (p : Nat) (xs ys : List ℚ) (t : Nat)
    (h : xs.take (t + 1) = ys.take (t + 1)) : window p xs t = window p ys t := by
  rw [window, window, h]

lemma rollingMeanAt_congr (p m : Nat) (xs ys : List ℚ) (t : Nat)
    (hx : t < xs.length) (h : xs.take (t + 1) = ys.take (t + 1)) :
    rollingMeanAt p m ys t = rollingMeanAt p m xs t := by
  have hy := length_of_take_eq xs ys t hx h
  rw [rollingMeanAt, rollingMeanAt, window_congr p xs ys t h]
  by_cases hm : m ≤ min (t + 1) p
  · rw [if_pos ⟨hy, hm⟩, if_pos ⟨hx, hm⟩]
  · rw [if_neg (fun hc => hm hc.2), if_neg (fun hc => hm hc.2)]

lemma rollingVarAt_congr (p m : Nat) (xs ys : List ℚ) (t : Nat)
    (hx : t < xs.length) (h : xs.take (t + 1) = ys.take (t + 1)) :
    rollingVarAt p m ys t = rollingVarAt p m xs t := by
  have hy := length_of_take_eq xs ys t hx h
  rw [rollingVarAt, rollingVarAt, window_congr p xs ys t h]
  by_cases hm : m ≤ min (t + 1) p ∧ 2 ≤ min (t + 1) p
  · rw [if_pos ⟨hy, hm.1, hm.2⟩, if_pos ⟨hx, hm.1, hm.2⟩]
  · rw [if_neg (fun hc => hm ⟨hc.2.1, hc.2.2⟩),
      if_neg (fun hc => hm ⟨hc.2.1, hc.2.2⟩)]

lemma rollingMinAt_congr (p : Nat) (xs ys : List ℚ) (t : Nat)
    (hx : t < xs.length) (h : xs.take (t + 1) = ys.take (t + 1)) :
    rollingMinAt p ys t = rollingMinAt p xs t := by
  have hy := length_of_take_eq xs ys t hx h
  rw [rollingMinAt, rollingMinAt, window_congr p xs ys t h]
  by_cases hm : p ≤ t + 1 ∧ 1 ≤ p
  · rw [if_pos ⟨hy, hm.1, hm.2⟩, if_pos ⟨hx, hm.1, hm.2⟩]
  · rw [if_neg (fun hc => hm ⟨hc.2.1, hc.2.2⟩),
      if_neg (fun hc => hm ⟨hc.2.1, hc.2.2⟩)]

lemma rollingMaxAt_congr (p : Nat) (xs ys : List ℚ) (t : Nat)
    (hx : t < xs.length) (h : xs.take (t + 1) = ys.take (t + 1)) :
    rollingMaxAt p ys t = rollingMaxAt p xs t := by
  have hy := length_of_take_eq xs ys t hx h
  rw [rollingMaxAt, rollingMaxAt, window_congr p xs ys t h]
  by_cases hm : p ≤ t + 1 ∧ 1 ≤ p
  · rw [if_pos ⟨hy, hm.1, hm.2⟩, if_pos ⟨hx, hm.1, hm.2⟩]
  · rw [if_neg (fun hc => hm ⟨hc.2.1, hc.2.2⟩),
      if_neg (fun hc => hm ⟨hc.2.1, hc.2.2⟩)]

lemma pctChangeAt_congr (p : Nat) (xs ys : List ℚ) (t : Nat)
    (hx : t < xs.length) (h : xs.take (t + 1) = ys.take (t + 1)) :
    pctChangeAt p ys t = pctChangeAt p xs t := by
  have hy := length_of_take_eq xs ys t hx h
  rw [pctChangeAt, pctChangeAt]
  by_cases hm : p ≤ t ∧ 1 ≤ p
  · rw [if_pos ⟨hy, hm.1, hm.2⟩, if_pos ⟨hx, hm.1, hm.2⟩]
    rw [getD_eq_of_take_eq ys xs (t + 1) t 0 h.symm (by omega),
      getD_eq_of_take_eq ys xs (t + 1) (t - p) 0 h.symm (by omega)]
  · rw [if_neg (fun hc => hm ⟨hc.2.1, hc.2.2⟩),
      if_neg (fun hc => hm ⟨hc.2.1, hc.2.2⟩)]

lemma emaSpanList_getD_congr (s : Nat) (xs ys : List ℚ) (t : Nat)
    (hx : t < xs.length) (h : xs.take (t + 1) = ys.take (t + 1)) :
    (emaSpanList s ys).getD t 0 = (emaSpanList s xs).getD t 0 := by
  have htake : (emaSpanList s ys).take (t + 1)
      = (emaSpanList s xs).take (t + 1) := by
    rw [← emaSpanList_take, ← emaSpanList_take, h]
  exact getD_eq_of_take_eq _ _ (t + 1) t 0 htake (by omega)

lemma macdList_getD_congr (fast slow : Nat) (xs ys : List ℚ) (t : Nat)
    (hx : t < xs.length) (h : xs.take (t + 1) = ys.take (t + 1)) :
    (macdList fast slow ys).getD t 0 = (macdList fast slow xs).getD t 0 := by
  have htake : (macdList fast slow ys).take (t + 1)
      = (macdList fast slow xs).take (t + 1) := by
    rw [← macdList_take, ← macdList_take, h]
  exact getD_eq_of_take_eq _ _ (t + 1) t 0 htake (by omega)

lemma macdSignalList_getD_congr (fast slow sg : Nat) (xs ys : List ℚ) (t : Nat)
    (hx : t < xs.length) (h : xs.take (t + 1) = ys.take (t + 1)) :
    (macdSignalList fast slow sg ys).getD t 0
      = (macdSignalList fast slow sg xs).getD t 0 := by
  have htake : (macdSignalList fast slow sg ys).take (t + 1)
      = (macdSignalList fast slow sg xs).take (t + 1) := by
    rw [← macdSignalList_take, ← macdSignalList_take, h]
  exact getD_eq_of_take_eq _ _ (t + 1) t 0 htake (by omega)

lemma rsiAt_congr (p : Nat) (xs ys : List ℚ) (t : Nat)
    (hx : t < xs.length) (h : xs.take (t + 1) = ys.take (t + 1)) :
    rsiAt p ys t = rsiAt p xs t := by
  have hgt : (gains xs).take (t + 1) = (gains ys).take (t + 1) := by
    rw [← gains_take, ← gains_take, h]
  have hlt : (losses xs).take (t + 1) = (losses ys).take (t + 1) := by
    rw [← losses_take, ← losses_take, h]
  have hgl : t < (gains xs).length := by rw [length_gains]; exact hx
  have hll : t < (losses xs).length := by rw [length_losses]; exact hx
  rw [rsiAt, rsiAt, rollingMeanAt_congr p p (gains xs) (gains ys) t hgl hgt,
    rollingMeanAt_congr p p (losses xs) (losses ys) t hll hlt]

lemma stochKAt_congr (kp : Nat) (c1 c2 hs1 hs2 ls1 ls2 : List ℚ) (t : Nat)
    (hcl : t < c1.length) (hch : c1.take (t + 1) = c2.take (t + 1))
    (hhl : t < hs1.length) (hhh : hs1.take (t + 1) = hs2.take (t + 1))
    (hll : t < ls1.length) (hlh : ls1.take (t + 1) = ls2.take (t + 1)) :
    stochKAt kp c2 hs2 ls2 t = stochKAt kp c1 hs1 ls1 t := by
  rw [stochKAt, stochKAt, rollingMinAt_congr kp ls1 ls2 t hll hlh,
    rollingMaxAt_congr kp hs1 hs2 t hhl hhh,
    getD_eq_of_take_eq c2 c1 (t + 1) t 0 hch.symm (by omega)]

lemma stochKList_take_congr (kp : Nat) (c1 c2 hs1 hs2 ls1 ls2 : List ℚ)
    (t : Nat)
    (hcl : t < c1.length) (hch : c1.take (t + 1) = c2.take (t + 1))
    (hhl : t < hs1.length) (hhh : hs1.take (t + 1) = hs2.take (t + 1))
    (hll : t < ls1.length) (hlh : ls1.take (t + 1) = ls2.take (t + 1)) :
    (stochKList kp c2 hs2 ls2).take (t + 1)
      = (stochKList kp c1 hs1 ls1).take (t + 1) := by
  have hcl2 := length_of_take_eq c1 c2 t hcl hch
  rw [stochKList, stochKList, ← List.map_take, ← List.map_take,
    List.take_range, List.take_range,
    show min (t + 1) c2.length = t + 1 from by omega,
    show min (t + 1) c1.length = t + 1 from by omega]
  refine List.map_congr_left ?_
  intro i hi
  have hit : i < t + 1 := by simpa using hi
  refine stochKAt_congr kp c1 c2 hs1 hs2 ls1 ls2 i (by omega) ?_ (by omega) ?_
    (by omega) ?_
  · have e1 : c1.take (i + 1) = (c1.take (t + 1)).take (i + 1) := by
      rw [List.take_take, min_eq_left (by omega : i + 1 ≤ t + 1)]
    have e2 : c2.take (i + 1) = (c2.take (t + 1)).take (i + 1) := by
      rw [List.take_take, min_eq_left (by omega : i + 1 ≤ t + 1)]
    rw [e1, e2, hch]
  · have e1 : hs1.take (i + 1) = (hs1.take (t + 1)).take (i + 1) := by
      rw [List.take_take, min_eq_left (by omega : i + 1 ≤ t + 1)]
    have e2 : hs2.take (i + 1) = (hs2.take (t + 1)).take (i + 1) := by
      rw [List.take_take, min_eq_left (by omega : i + 1 ≤ t + 1)]
    rw [e1, e2, hhh]
  · have e1 : ls1.take (i + 1) = (ls1.take (t + 1)).take (i + 1) := by
      rw [List.take_take, min_eq_left (by omega : i + 1 ≤ t + 1)]
    have e2 : ls2.take (i + 1) = (ls2.take (t + 1)).take (i + 1) := by
      rw [List.take_take, min_eq_left (by omega : i + 1 ≤ t + 1)]
    rw [e1, e2, hlh]

lemma stochDAt_congr (kp d : Nat) (c1 c2 hs1 hs2 ls1 ls2 : List ℚ) (t : Nat)
    (hcl : t < c1.length) (hch : c1.take (t + 1) = c2.take (t + 1))
    (hhl : t < hs1.length) (hhh : hs1.take (t + 1) = hs2.take (t + 1))
    (hll : t < ls1.length) (hlh : ls1.take (t + 1) = ls2.take (t + 1)) :
    stochDAt kp d c2 hs2 ls2 t = stochDAt kp d c1 hs1 ls1 t := by
  have hcl2 := length_of_take_eq c1 c2 t hcl hch
  rw [stochDAt, stochDAt,
    stochKList_take_congr kp c1 c2 hs1 hs2 ls1 ls2 t hcl hch hhl hhh hll hlh]
  by_cases hm : d ≤ t + 1 ∧ 1 ≤ d
  · rw [if_pos ⟨hcl2, hm.1, hm.2⟩, if_pos ⟨hcl, hm.1, hm.2⟩]
  · rw [if_neg (fun hc => hm ⟨hc.2.1, hc.2.2⟩),
      if_neg (fun hc => hm ⟨hc.2.1, hc.2.2⟩)]

/-! ### Forward fill machinery -/

lemma length_fillRow : ∀ (lasts tech : List (Option ℚ)),
    (fillRow lasts tech).length = tech.length
  | [], [] => rfl
  | _ :: _, [] => rfl
  | [], _ :: cs => by
    rw [fillRow, List.length_cons, List.length_cons, length_fillRow [] cs]
  | _ :: ls, _ :: cs => by
    rw [fillRow, List.length_cons, List.length_cons, length_fillRow ls cs]

lemma length_ffillRows : ∀ (rows : List CRow) (lasts : List (Option ℚ)),
    (ffillRows lasts rows).length = rows.length
  | [], _ => rfl
  | r :: rest, lasts => by
    rw [ffillRows, List.length_cons, List.length_cons,
      length_ffillRows rest _]

lemma fillRow_getD : ∀ (lasts tech : List (Option ℚ)) (j : Nat),
    j < tech.length →
    (fillRow lasts tech).getD j none
      = fillStep (lasts.getD j none) (tech.getD j none)
  | _, [], j, hj => by simp at hj
  | [], c :: cs, 0, _ => by
    rw [fillRow, List.getD_cons_zero, List.getD_cons_zero]
    cases c <;> rfl
  | [], c :: cs, j + 1, hj => by
    rw [fillRow, List.getD_cons_succ, List.getD_cons_succ,
      fillRow_getD [] cs j (by simpa using hj)]
    rfl
  | l :: ls, c :: cs, 0, _ => by
    rw [fillRow, List.getD_cons_zero, List.getD_cons_zero, List.getD_cons_zero]
  | l :: ls, c :: cs, j + 1, hj => by
    rw [fillRow, List.getD_cons_succ, List.getD_cons_succ, List.getD_cons_succ,
      fillRow_getD ls cs j (by simpa using hj)]

lemma ffillRows_mem : ∀ (rows : List CRow) (lasts : List (Option ℚ))
    (r2 : CRow), r2 ∈ ffillRows lasts rows →
    ∃ r ∈ rows, r2.symbol = r.symbol ∧ r2.date = r.date ∧ r2.opn = r.opn ∧
      r2.high = r.high ∧ r2.low = r.low ∧ r2.close = r.close ∧
      r2.volume = r.volume
  | [], _, r2, h => by simp [ffillRows] at h
  | r :: rest, lasts, r2, h => by
    rw [ffillRows, List.mem_cons] at h
    rcases h with h | h
    · exact ⟨r, List.mem_cons_self r rest, by rw [h], by rw [h], by rw [h],
        by rw [h], by rw [h], by rw [h], by rw [h]⟩
    · obtain ⟨r0, hr0, hf⟩ := ffillRows_mem rest _ r2 h
      exact ⟨r0, List.mem_cons_of_mem r hr0, hf⟩

/-- The value of technical column `j` at row `i` after the global
forward fill: the `fillStep` fold of the column's cells up to and
including row `i`, seeded with the carried-in value — the most recent
non-null cell wins, with no regard to the instrument of the row it
came from. -/
lemma ffill_cell : ∀ (rows : List CRow) (lasts : List (Option ℚ)) (i j : Nat),
    i < rows.length → (∀ r ∈ rows, j < r.tech.length) →
    ((ffillRows lasts rows).getD i default).tech.getD j none =
      ((rows.take (i + 1)).map (fun r => r.tech.getD j none)).foldl fillStep
        (lasts.getD j none)
  | [], _, i, _, hi, _ => by simp at hi
  | r :: rest, lasts, 0, j, _, hall => by
    rw [ffillRows, List.getD_cons_zero]
    have hjr : j < r.tech.length := hall r (List.mem_cons_self r rest)
    show (fillRow lasts r.tech).getD j none = _
    rw [fillRow_getD lasts r.tech j hjr]
    rw [List.take_succ_cons, List.take_zero, List.map_cons, List.map_nil,
      List.foldl_cons, List.foldl_nil]
  | r :: rest, lasts, i + 1, j, hi, hall => by
    rw [ffillRows, List.getD_cons_succ]
    rw [ffill_cell rest _ i j (by simpa using hi)
      (fun r0 h0 => hall r0 (List.mem_cons_of_mem r h0))]
    rw [fillRow_getD lasts r.tech j (hall r (List.mem_cons_self r rest))]
    rw [List.take_succ_cons, List.map_cons, List.foldl_cons]

lemma foldl_fillStep_none : ∀ (l : List (Option ℚ)) (a : Option ℚ),
    (∀ x ∈ l, x = none) → l.foldl fillStep a = a
  | [], _, _ => rfl
  | x :: l, a, h => by
    rw [List.foldl_cons, h x (List.mem_cons_self x l)]
    exact foldl_fillStep_none l a (fun y hy => h y (List.mem_cons_of_mem x hy))

lemma foldl_fillStep_last (l : List (Option ℚ)) (a : Option ℚ) (v : ℚ) :
    (l ++ [some v]).foldl fillStep a = some v := by
  rw [List.foldl_append]
  rfl

lemma getD_zipWith {α β γ : Type} (g : α → β → γ) :
    ∀ (l1 : List α) (l2 : List β) (t : Nat) (d1 : α) (d2 : β) (d : γ),
      t < l1.length → t < l2.length →
      (List.zipWith g l1 l2).getD t d = g (l1.getD t d1) (l2.getD t d2)
  | [], _, t, _, _, _, h1, _ => by simp at h1
  | _ :: _, [], t, _, _, _, _, h2 => by simp at h2
  | a :: l1, b :: l2, 0, d1, d2, d, _, _ => by
    rw [List.zipWith_cons_cons, List.getD_cons_zero, List.getD_cons_zero,
      List.getD_cons_zero]
  | a :: l1, b :: l2, t + 1, d1, d2, d, h1, h2 => by
    rw [List.zipWith_cons_cons, List.getD_cons_succ, List.getD_cons_succ,
      List.getD_cons_succ,
      getD_zipWith g l1 l2 t d1 d2 d (by simpa using h1) (by simpa using h2)]

lemma length_closeColumn (rows : List PRow) :
    (closeColumn rows).length = rows.length := by
  simp [closeColumn]

lemma mem_filterStage (df : List CRow) (r : CRow) :
    r ∈ filterStage df ↔ r ∈ df ∧ closeValid r ∧ volumeValid r := by
  simp only [filterStage, List.mem_filter, decide_eq_true_eq]
  tauto

/-! ### Claims -/

/-- C8: strict minimum-periods SMA (`TechnicalAnalysis.calculate_sma`,
`rolling(window=period).mean()` with the pandas default
`min_periods = window`): the value at row `t` is null while fewer than
`p` rows are available and is the mean of the trailing `p` closes
otherwise; on `close = [10, 11, 9, 12, 12]` with period 3, rows 0 and 1
are null and 0-indexed row 2 equals `mean(10, 11, 9) = 10`. -/
theorem claim_C8 :
    (∀ (xs : List ℚ) (p t : Nat), t < xs.length →
      ((t + 1 < p → (smaList p xs).getD t (some 0) = none) ∧
       (p ≤ t + 1 →
         (smaList p xs).getD t (some 0)
           = some (mean ((xs.take (t + 1)).drop (t + 1 - p)))))) ∧
    (smaList 3 [10, 11, 9, 12, 12]).getD 0 (some 0) = none ∧
    (smaList 3 [10, 11, 9, 12, 12]).getD 1 (some 0) = none ∧
    (smaList 3 [10, 11, 9, 12, 12]).getD 2 (some 0) = some 10 := by
  refine ⟨?_, ?_, ?_, ?_⟩
  · intro xs p t ht
    constructor
    · intro hlt
      rw [smaList, rollingMeanList, getD_map_range _ _ t _ ht, rollingMeanAt,
        if_neg]
      intro hc
      omega
    · intro hp
      rw [smaList, rollingMeanList, getD_map_range _ _ t _ ht, rollingMeanAt,
        if_pos ⟨ht, by omega⟩, window]
  · simp [smaList, rollingMeanList, rollingMeanAt, List.range_succ]
  · simp [smaList, rollingMeanList, rollingMeanAt, List.range_succ]
  · simp [smaList, rollingMeanList, rollingMeanAt, window, mean,
      List.range_succ]
    norm_num

/-- Witness for C8 at the concrete scenario: row 2 of
`SMA(3)` on `[10, 11, 9, 12, 12]` is the mean of the first three
closes. -/
theorem claim_C8_witness :
    (2 : Nat) < ([10, 11, 9, 12, 12] : List ℚ).length ∧
    (smaList 3 [(10 : ℚ), 11, 9, 12, 12]).getD 2 (some 0)
      = some (mean ((([(10 : ℚ), 11, 9, 12, 12]).take 3).drop 0)) :=
  ⟨by simp,
    (claim_C8.1 [10, 11, 9, 12, 12] 3 2 (by simp)).2 (by omega)⟩

/-- C9: the RSI divide-by-zero guard of `calculate_rsi` under float
semantics: whenever the trailing average loss is `0` and the trailing
average gain is strictly positive, `RS = avg_gain/avg_loss = +∞` and
`RSI = 100 - 100/(1 + ∞)` is exactly `100` (a finite number, neither
infinite nor NaN); when both averages are `0`, `RS = 0/0 = NaN`
propagates and the RSI is null (NaN). -/
theorem claim_C9 (xs : List ℚ) (p t : Nat) (g l : ℚ)
    (hg : rollingMeanAt p p (gains xs) t = some g)
    (hl : rollingMeanAt p p (losses xs) t = some l) :
    (l = 0 → 0 < g → rsiAt p xs t = FV.num 100) ∧
    (l = 0 → g = 0 → rsiAt p xs t = FV.nan) := by
  constructor
  · intro hl0 hg0
    subst hl0
    have h1 : FV.div (FV.num g) (FV.num 0) = FV.pinf := by
      simp [FV.div, hg0.ne', hg0]
    simp only [rsiAt, hg, hl, h1]
    show FV.num (100 + -(0 : ℚ)) = FV.num 100
    norm_num
  · intro hl0 hg0
    subst hl0
    subst hg0
    have h1 : FV.div (FV.num 0) (FV.num 0) = FV.nan := by
      simp [FV.div]
    simp only [rsiAt, hg, hl, h1]
    rfl

/-- Witness for C9: on `close = [1, 2, 3]` with period 2 the window at
row 2 has average gain 1 and average loss 0, and the RSI is exactly
100; on the constant series `[5, 5, 5]` both averages are 0 and the
RSI is NaN. -/
theorem claim_C9_witness :
    rsiAt 2 [1, 2, 3] 2 = FV.num 100 ∧ rsiAt 2 [5, 5, 5] 2 = FV.nan :=
  ⟨(claim_C9 [1, 2, 3] 2 2 1 0
      (by simp [gains, gainsFrom, rollingMeanAt, window, mean]; norm_num)
      (by simp [losses, lossesFrom, rollingMeanAt, window, mean]; norm_num)).1
    rfl (by norm_num),
   (claim_C9 [5, 5, 5] 2 2 0 0
      (by simp [gains, gainsFrom, rollingMeanAt, window, mean])
      (by simp [losses, lossesFrom, rollingMeanAt, window, mean])).2
    rfl rfl⟩

/-- C4 counterexample: in `TargetGenerator.add_targets` the direction
target is `(future_price > close).astype(int)`; at the last (here,
only) row of a group the future price is null, the comparison is
false, and `astype(int)` yields the integer `0` — not a null — even
though `target_return` is null there.  This falsifies the claim that
`target_direction_h` is null whenever `target_return_h` is null. -/
theorem claim_C4_counterexample :
    returnColumn 1 [⟨"A", 5⟩] = [none] ∧
    directionColumn 1 [⟨"A", 5⟩] = [(0 : ℤ)] := by
  constructor <;>
    simp [returnColumn, directionColumn, futureColumn, groupbyTransform,
      gbtAux, seriesOf, shiftNegList, closeColumn, List.filter]

/-- C4 amended: for rows with positive close, `direction_{h}d` equals
`1` when `target_return_h > 0` and `0` when `target_return_h ≤ 0`; but
when `target_return_h` is null the direction is the integer `0`, not
null (the comparison with a null future price is false and
`astype(int)` makes the column integer-valued with no missing
entries). -/
theorem claim_C4_amended (rows : List PRow) (h t : Nat) (ht : t < rows.length)
    (hc : 0 < (closeColumn rows).getD t 0) :
    (∀ q : ℚ, (returnColumn h rows).getD t none = some q →
      (directionColumn h rows).getD t 0 = if 0 < q then 1 else 0) ∧
    ((returnColumn h rows).getD t none = none →
      (directionColumn h rows).getD t 0 = 0) := by
  have hfl : t < (futureColumn h rows).length := by
    rw [futureColumn, length_groupbyTransform]; exact ht
  have hcl : t < (closeColumn rows).length := by
    rw [length_closeColumn]; exact ht
  rw [returnColumn, directionColumn,
    getD_zipWith _ _ _ t none 0 none hfl hcl,
    getD_zipWith _ _ _ t none 0 0 hfl hcl]
  cases hfut : (futureColumn h rows).getD t none with
  | none =>
    constructor
    · intro q hq
      exact Option.noConfusion hq
    · intro _
      rfl
  | some f =>
    constructor
    · intro q hq
      have hq2 : (f - (closeColumn rows).getD t 0) / (closeColumn rows).getD t 0
          = q := by
        injection hq
      show (if (closeColumn rows).getD t 0 < f then (1 : ℤ) else 0) = _
      refine if_congr ?_ rfl rfl
      rw [← hq2, lt_div_iff₀ hc, zero_mul, sub_pos]
    · intro hq
      exact Option.noConfusion hq

/-- Witness for C4 amended on the two-row table `A: [1, 2]` with
horizon 1: row 0 has return `1 > 0` and direction `1`; row 1 has null
return and direction `0`. -/
theorem claim_C4_amended_witness :
    ((directionColumn 1 [⟨"A", 1⟩, ⟨"A", 2⟩]).getD 0 0
      = if (0 : ℚ) < 1 then 1 else 0) ∧
    (directionColumn 1 [⟨"A", 1⟩, ⟨"A", 2⟩]).getD 1 0 = 0 :=
  ⟨(claim_C4_amended [⟨"A", 1⟩, ⟨"A", 2⟩] 1 0 (by simp)
      (by simp [closeColumn])).1 1
      (by simp [returnColumn, futureColumn, groupbyTransform, gbtAux,
        seriesOf, shiftNegList, closeColumn, List.filter]; norm_num),
   (claim_C4_amended [⟨"A", 1⟩, ⟨"A", 2⟩] 1 1 (by simp)
      (by simp [closeColumn])).2
      (by simp [returnColumn, futureColumn, groupbyTransform, gbtAux,
        seriesOf, shiftNegList, closeColumn, List.filter])⟩

/-- C6 counterexample: `clean_data` filters `df[df['volume'] > 0]`, so
a row with `close = 1 > 0` and `volume = 0` — which the claim says is
not removed — is dropped. -/
theorem claim_C6_counterexample :
    cleanData [⟨"A", 0, some 1, some 1, some 1, some 1, some 0, []⟩] = [] := by
  simp [cleanData, filterStage, ffillRows, fillRow, closeValid, volumeValid,
    rowComplete, List.filter]

/-- C6 amended: the price/volume filter of `clean_data` removes exactly
the rows without a strictly positive close or a strictly positive
volume (nulls compare as not-greater and are removed too); in
particular rows with `volume = 0` are removed, and every row retained
after cleaning has `close > 0` and `volume > 0`. -/
theorem claim_C6_amended (df : List CRow) :
    (∀ r : CRow, r ∈ filterStage df ↔ r ∈ df ∧ closeValid r ∧ volumeValid r) ∧
    (∀ r2 ∈ cleanData df,
      (∃ c, r2.close = some c ∧ 0 < c) ∧
      (∃ v, r2.volume = some v ∧ 0 < v)) := by
  refine ⟨fun r => mem_filterStage df r, ?_⟩
  intro r2 h2
  rw [cleanData, List.mem_filter] at h2
  obtain ⟨r0, hr0, _, _, _, _, _, hclose, hvol⟩ :=
    ffillRows_mem _ _ _ h2.1
  rw [mem_filterStage] at hr0
  obtain ⟨_, hcv, hvv⟩ := hr0
  constructor
  · cases hcc : r0.close with
    | none => simp [closeValid, hcc] at hcv
    | some c =>
      refine ⟨c, by rw [hclose, hcc], ?_⟩
      simpa [closeValid, hcc] using hcv
  · cases hvc : r0.volume with
    | none => simp [volumeValid, hvc] at hvv
    | some v =>
      refine ⟨v, by rw [hvol, hvc], ?_⟩
      simpa [volumeValid, hvc] using hvv

/-- Witness for C6 amended: a one-row table with `close = 2`,
`volume = 3` survives cleaning, and the surviving row indeed has
strictly positive close and volume. -/
theorem claim_C6_amended_witness :
    (∃ c, (some (2 : ℚ)) = some c ∧ 0 < c) ∧
    (∃ v, (some (3 : ℚ)) = some v ∧ 0 < v) :=
  (claim_C6_amended [⟨"A", 0, some 1, some 1, some 1, some 2, some 3, []⟩]).2
    ⟨"A", 0, some 1, some 1, some 1, some 2, some 3, []⟩
    (by simp [cleanData, filterStage, ffillRows, fillRow, closeValid,
      volumeValid, rowComplete, List.filter])

/-- C7 counterexample: `process_single_crypto` logs and re-raises
(line 149 of `main.py`), and the loop in `main` has no per-iteration
handler; a failure on the first instrument aborts the batch, so the
second instrument is never processed — contradicting the claim that
every other instrument still runs to completion. -/
theorem claim_C7_counterexample :
    runBatch (fun s => if s = "A" then Except.error "boom" else Except.ok ())
      ["A", "B"] = ([], some "boom") := by
  simp [runBatch]

/-- C7 amended: when an instrument fails, the instruments processed
before it are kept, its error propagates, and every instrument after
it in the batch is skipped: the batch aborts at the first failure
rather than isolating it. -/
theorem claim_C7_amended (f : String → Except String Unit)
    (pre rest : List String) (s e : String)
    (hpre : ∀ x ∈ pre, f x = Except.ok ()) (hs : f s = Except.error e) :
    runBatch f (pre ++ s :: rest) = (pre, some e) := by
  induction pre with
  | nil =>
    rw [List.nil_append]
    simp only [runBatch, hs]
  | cons a pre ih =>
    rw [List.cons_append]
    simp only [runBatch, hpre a (List.mem_cons_self a pre)]
    rw [ih (fun x hx => hpre x (List.mem_cons_of_mem a hx))]

/-- Witness for C7 amended: with "B" failing in the batch
`["A", "B", "C"]`, only "A" is processed and the batch aborts with
the error. -/
theorem claim_C7_amended_witness :
    runBatch (fun s => if s = "B" then Except.error "boom" else Except.ok ())
      (["A"] ++ "B" :: ["C"]) = (["A"], some "boom") :=
  claim_C7_amended _ ["A"] ["C"] "B" "boom" (by simp) (by simp)

/-- C1 counterexample: on the table `A: [1, 2]; B: [4, 8]` with MACD
parameters `fast = 1, slow = 3, signal = 3`, the `macd_signal` column
of `add_all_indicators` — whose EW pass runs over the whole combined
`macd` Series with no grouping — restricted to instrument B gives
`[1/8, 17/16]`, whereas the signal computed on B's series alone is
`[0, 1]`: the EW recursion carries state across the group boundary,
falsifying group isolation for the MACD signal line. -/
theorem claim_C1_counterexample :
    restrictCol [⟨"A", 1⟩, ⟨"A", 2⟩, ⟨"B", 4⟩, ⟨"B", 8⟩]
      (macdSignalColumn 1 3 3 [⟨"A", 1⟩, ⟨"A", 2⟩, ⟨"B", 4⟩, ⟨"B", 8⟩]) "B"
      = [1/8, 17/16] ∧
    macdSignalList 1 3 3
      (seriesOf "B" [⟨"A", 1⟩, ⟨"A", 2⟩, ⟨"B", 4⟩, ⟨"B", 8⟩]) = [0, 1] ∧
    (1 / 8 : ℚ) ≠ 0 := by
  refine ⟨?_, ?_, by norm_num⟩
  · simp [restrictCol, macdSignalColumn, macdColumn, emaColumn,
      groupbyTransform, gbtAux, seriesOf, ewmaList, ewmaFrom, emaSpanList,
      List.filter]
    norm_num [ewmaFrom]
  · simp [macdSignalList, macdList, seriesOf, emaSpanList, ewmaList,
      ewmaFrom, List.filter]
    norm_num [ewmaFrom]

/-- C1 amended: every grouped rolling/EW column of
`add_all_indicators` — the moving averages, the MACD line, the
Bollinger middle/std/upper bands and the momentum column — is
group-isolated: restricting the column computed on a combined table to
one instrument's rows equals computing it on that instrument's series
alone.  The MACD signal line is the exception established by the
counterexample: its EW recursion runs over the whole combined table. -/
theorem claim_C1_amended (rows : List PRow) (s : String) (p fast slow : Nat)
    (sq : ℚ → ℚ) :
    restrictCol rows (maColumn p rows) s
      = rollingMeanList p 1 (seriesOf s rows) ∧
    restrictCol rows (macdColumn fast slow rows) s
      = macdList fast slow (seriesOf s rows) ∧
    restrictCol rows (bbMiddleColumn rows) s
      = rollingMeanList 20 1 (seriesOf s rows) ∧
    restrictCol rows (bbStdColumn sq rows) s
      = rollingStdList sq 20 1 (seriesOf s rows) ∧
    restrictCol rows (bbUpperColumn sq rows) s
      = bbUpperList sq (seriesOf s rows) ∧
    restrictCol rows (momentumColumn rows) s
      = pctChangeList 10 (seriesOf s rows) := by
  refine ⟨?_, ?_, ?_, ?_, ?_, ?_⟩
  · exact groupbyTransform_restrict none _ (length_rollingMeanList p 1) rows s
  · rw [macdColumn, restrictCol_zipWith _ s rows _ _
      (by rw [emaColumn, length_groupbyTransform])
      (by rw [emaColumn, length_groupbyTransform]),
      emaColumn, emaColumn,
      groupbyTransform_restrict 0 _ (length_emaSpanList fast) rows s,
      groupbyTransform_restrict 0 _ (length_emaSpanList slow) rows s,
      macdList]
  · exact groupbyTransform_restrict none _ (length_rollingMeanList 20 1) rows s
  · exact groupbyTransform_restrict none _ (length_rollingStdList sq 20 1)
      rows s
  · rw [bbUpperColumn, restrictCol_zipWith _ s rows _ _
      (by rw [bbMiddleColumn, length_groupbyTransform])
      (by rw [bbStdColumn, length_groupbyTransform]),
      bbMiddleColumn, bbStdColumn,
      groupbyTransform_restrict none _ (length_rollingMeanList 20 1) rows s,
      groupbyTransform_restrict none _ (length_rollingStdList sq 20 1) rows s,
      bbUpperList]
  · exact groupbyTransform_restrict none _ (length_pctChangeList 10) rows s

/-- C3: forward-shift discipline of the return targets
(`TargetGenerator.add_targets`): within each instrument group, the
`future_price_{h}d` value at group row `t` is the group's close at row
`t + h` when that row exists and is null on the group's last `h` rows;
hence `return_{h}d` is null on those last `h` rows, and in particular
`return_1d` is null at the last row of every instrument group. -/
theorem claim_C3 (rows : List PRow) (h : Nat) (s : String) :
    (∀ t, t + h < (seriesOf s rows).length →
      (restrictCol rows (futureColumn h rows) s).getD t none
        = some ((seriesOf s rows).getD (t + h) 0)) ∧
    (∀ t, t < (seriesOf s rows).length → (seriesOf s rows).length ≤ t + h →
      (restrictCol rows (futureColumn h rows) s).getD t (some 0) = none) ∧
    (∀ t, t < (seriesOf s rows).length → (seriesOf s rows).length ≤ t + h →
      (restrictCol rows (returnColumn h rows) s).getD t (some 0) = none) ∧
    (1 ≤ (seriesOf s rows).length →
      (restrictCol rows (returnColumn 1 rows) s).getD
        ((seriesOf s rows).length - 1) (some 0) = none) := by
  have hfut : ∀ h2, restrictCol rows (futureColumn h2 rows) s
      = shiftNegList h2 (seriesOf s rows) := fun h2 =>
    groupbyTransform_restrict none _ (length_shiftNegList h2) rows s
  have hret : ∀ h2, restrictCol rows (returnColumn h2 rows) s
      = List.zipWith (fun fo c => fo.map (fun f => (f - c) / c))
          (shiftNegList h2 (seriesOf s rows)) (seriesOf s rows) := by
    intro h2
    rw [returnColumn, restrictCol_zipWith _ s rows _ _
      (by rw [futureColumn, length_groupbyTransform])
      (by rw [length_closeColumn]),
      hfut h2, restrictCol_closeColumn]
  refine ⟨?_, ?_, ?_, ?_⟩
  · intro t htl
    rw [hfut h, shiftNegList, getD_map_range _ _ t _ (by omega), if_pos htl]
  · intro t htl hge
    rw [hfut h, shiftNegList, getD_map_range _ _ t _ htl, if_neg (by omega)]
  · intro t htl hge
    rw [hret h, getD_zipWith _ _ _ t none 0 (some 0) (by
        rw [length_shiftNegList]; exact htl) htl,
      shiftNegList, getD_map_range _ _ t _ htl, if_neg (by omega)]
    rfl
  · intro hlen
    rw [hret 1, getD_zipWith _ _ _ _ none 0 (some 0) (by
        rw [length_shiftNegList]; omega) (by omega),
      shiftNegList, getD_map_range _ _ _ _ (by omega), if_neg (by omega)]
    rfl

/-- Witness for C3 on the table `A: [1, 2]` with horizon 1: row 0's
future price is the close of row 1; the future price and the return
are null at the last row. -/
theorem claim_C3_witness :
    (restrictCol [⟨"A", 1⟩, ⟨"A", 2⟩]
        (futureColumn 1 [⟨"A", 1⟩, ⟨"A", 2⟩]) "A").getD 0 none
      = some ((seriesOf "A" [⟨"A", 1⟩, ⟨"A", 2⟩]).getD 1 0) ∧
    (restrictCol [⟨"A", 1⟩, ⟨"A", 2⟩]
        (futureColumn 1 [⟨"A", 1⟩, ⟨"A", 2⟩]) "A").getD 1 (some 0) = none ∧
    (restrictCol [⟨"A", 1⟩, ⟨"A", 2⟩]
        (returnColumn 1 [⟨"A", 1⟩, ⟨"A", 2⟩]) "A").getD 1 (some 0) = none :=
  ⟨(claim_C3 [⟨"A", 1⟩, ⟨"A", 2⟩] 1 "A").1 0
      (by simp [seriesOf, List.filter]),
   (claim_C3 [⟨"A", 1⟩, ⟨"A", 2⟩] 1 "A").2.1 1
      (by simp [seriesOf, List.filter]) (by simp [seriesOf, List.filter]),
   (claim_C3 [⟨"A", 1⟩, ⟨"A", 2⟩] 1 "A").2.2.1 1
      (by simp [seriesOf, List.filter]) (by simp [seriesOf, List.filter])⟩

/-- C5 counterexample: `clean_data` forward-fills the technical
columns of the whole dataframe with no grouping by symbol
(`df[technical_columns].fillna(method='ffill')`), so on `dfCross` the
null technical cell of instrument "B" is filled with instrument "A"'s
value `5` — a fill that carries a value from one instrument's rows
into another's, which the claim says never happens. -/
theorem claim_C5_counterexample :
    (cleanData dfCross).map (fun r => (r.symbol, r.tech))
      = [("A", [some 5]), ("B", [some 5])] := by
  simp [dfCross, cleanData, filterStage, ffillRows, fillRow, fillStep,
    closeValid, volumeValid, rowComplete, List.filter]

/-- C5 amended: `clean_data` forward-fills nulls only in the
non-OHLCV (technical/target) columns — the identifier and raw OHLCV
values of every surviving row are exactly those of an input row — but
the fill is a single pass over the whole table in row order with no
grouping: the filled value of a technical cell is the most recent
non-null value of that column at-or-before the row, regardless of
which instrument it came from, so fills can cross instrument
boundaries. -/
theorem claim_C5_amended (df : List CRow) :
    (∀ r2 ∈ cleanData df, ∃ r ∈ df,
      r2.symbol = r.symbol ∧ r2.date = r.date ∧ r2.opn = r.opn ∧
      r2.high = r.high ∧ r2.low = r.low ∧ r2.close = r.close ∧
      r2.volume = r.volume) ∧
    (∀ i j, i < (filterStage df).length →
      (∀ r ∈ df, j < r.tech.length) →
      ((ffillRows [] (filterStage df)).getD i default).tech.getD j none =
        (((filterStage df).take (i + 1)).map
          (fun r => r.tech.getD j none)).foldl fillStep none) := by
  constructor
  · intro r2 h2
    rw [cleanData, List.mem_filter] at h2
    obtain ⟨r0, hr0, hf⟩ := ffillRows_mem _ _ _ h2.1
    exact ⟨r0, ((mem_filterStage df r0).mp hr0).1, hf⟩
  · intro i j hi hall
    have hall2 : ∀ r ∈ filterStage df, j < r.tech.length := fun r hr =>
      hall r ((mem_filterStage df r).mp hr).1
    have hc := ffill_cell (filterStage df) [] i j hi hall2
    simpa using hc

/-- Witness for C5 amended on `dfCross`: the technical cell of the
second row (instrument "B") after the fill stage is the `fillStep`
fold of the whole column up to it, instruments ignored. -/
theorem claim_C5_amended_witness :
    ((ffillRows [] (filterStage dfCross)).getD 1 default).tech.getD 0 none =
      (((filterStage dfCross).take 2).map
        (fun r => r.tech.getD 0 none)).foldl fillStep none :=
  (claim_C5_amended dfCross).2 1 0
    (by simp [dfCross, filterStage, closeValid, volumeValid, List.filter])
    (by simp [dfCross])

/-- C2 counterexample: a feature value is not always a function of
rows of the same instrument only.  The tables
`A: [1, 2]; B: [4, 8]` and `A: [1, 1]; B: [4, 8]` hold the identical
series for instrument B, yet the `macd_signal` column of
`add_all_indicators` (MACD parameters `fast = 1, slow = 3,
signal = 3`) restricted to B's rows is `[1/8, 17/16]` on the first
table and `[0, 1]` on the second: B's signal values change when only
instrument A's closes change, because the signal's EW pass runs over
the whole combined `macd` column with no grouping.  This falsifies the
claim's clause that every produced feature value at row `t` is a
function of rows `≤ t` of the same instrument only. -/
theorem claim_C2_counterexample :
    seriesOf "B" [⟨"A", 1⟩, ⟨"A", 2⟩, ⟨"B", 4⟩, ⟨"B", 8⟩]
      = seriesOf "B" [⟨"A", 1⟩, ⟨"A", 1⟩, ⟨"B", 4⟩, ⟨"B", 8⟩] ∧
    restrictCol [⟨"A", 1⟩, ⟨"A", 2⟩, ⟨"B", 4⟩, ⟨"B", 8⟩]
      (macdSignalColumn 1 3 3 [⟨"A", 1⟩, ⟨"A", 2⟩, ⟨"B", 4⟩, ⟨"B", 8⟩]) "B"
      = [1/8, 17/16] ∧
    restrictCol [⟨"A", 1⟩, ⟨"A", 1⟩, ⟨"B", 4⟩, ⟨"B", 8⟩]
      (macdSignalColumn 1 3 3 [⟨"A", 1⟩, ⟨"A", 1⟩, ⟨"B", 4⟩, ⟨"B", 8⟩]) "B"
      = [0, 1] ∧
    ((17 / 16 : ℚ) ≠ 1 ∧ (1 / 8 : ℚ) ≠ 0) := by
  refine ⟨?_, ?_, ?_, by norm_num⟩
  · simp [seriesOf, List.filter]
  · simp [restrictCol, macdSignalColumn, macdColumn, emaColumn,
      groupbyTransform, gbtAux, seriesOf, ewmaList, ewmaFrom, emaSpanList,
      List.filter]
    norm_num [ewmaFrom]
  · simp [restrictCol, macdSignalColumn, macdColumn, emaColumn,
      groupbyTransform, gbtAux, seriesOf, ewmaList, ewmaFrom, emaSpanList,
      List.filter]
    norm_num [ewmaFrom]

/-- C2 amended: no lookahead in features, and same-instrument
dependence for every produced column except the MACD signal.  For
every instrument series, if a second series agrees with it on rows
`0..t` (rows after `t` appended or modified arbitrarily), then every
indicator value at row `t` is unchanged: rolling means (any
window/min-periods, covering the SMAs and Bollinger middle band), the
EMA, the RSI, the MACD line and the signal of one series, the rolling
variance (the Bollinger band width up to the fixed square root), the
stochastic oscillator `%K`/`%D` over close/high/low, and momentum
(`pct_change`).  In addition the grouped feature columns of
`add_all_indicators` — the moving averages, the MACD line, the
Bollinger middle/std/upper bands and momentum — read only their own
instrument's series, so their values depend on rows `≤ t` of the same
instrument only; the `macd_signal` column is the exception established
by the counterexample: its EW pass runs over the whole combined table
and its values also depend on other instruments' earlier rows. -/
theorem claim_C2_amended (xs ys highs highs2 lows lows2 : List ℚ) (t : Nat)
    (hx : t < xs.length) (hxy : xs.take (t + 1) = ys.take (t + 1))
    (hh : t < highs.length) (hh2 : highs.take (t + 1) = highs2.take (t + 1))
    (hl : t < lows.length) (hl2 : lows.take (t + 1) = lows2.take (t + 1)) :
    (∀ p m, rollingMeanAt p m ys t = rollingMeanAt p m xs t) ∧
    (∀ s, (emaSpanList s ys).getD t 0 = (emaSpanList s xs).getD t 0) ∧
    (∀ p, rsiAt p ys t = rsiAt p xs t) ∧
    (∀ fast slow, (macdList fast slow ys).getD t 0
      = (macdList fast slow xs).getD t 0) ∧
    (∀ fast slow sg, (macdSignalList fast slow sg ys).getD t 0
      = (macdSignalList fast slow sg xs).getD t 0) ∧
    (∀ p m, rollingVarAt p m ys t = rollingVarAt p m xs t) ∧
    (∀ kp, stochKAt kp ys highs2 lows2 t = stochKAt kp xs highs lows t) ∧
    (∀ kp d, stochDAt kp d ys highs2 lows2 t = stochDAt kp d xs highs lows t) ∧
    (∀ p, pctChangeAt p ys t = pctChangeAt p xs t) ∧
    (∀ (rows : List PRow) (s : String) (p : Nat),
      restrictCol rows (maColumn p rows) s
        = rollingMeanList p 1 (seriesOf s rows)) ∧
    (∀ (rows : List PRow) (s : String) (fast slow : Nat),
      restrictCol rows (macdColumn fast slow rows) s
        = macdList fast slow (seriesOf s rows)) ∧
    (∀ (rows : List PRow) (s : String) (sq : ℚ → ℚ),
      restrictCol rows (bbMiddleColumn rows) s
        = rollingMeanList 20 1 (seriesOf s rows) ∧
      restrictCol rows (bbStdColumn sq rows) s
        = rollingStdList sq 20 1 (seriesOf s rows) ∧
      restrictCol rows (bbUpperColumn sq rows) s
        = bbUpperList sq (seriesOf s rows)) ∧
    (∀ (rows : List PRow) (s : String),
      restrictCol rows (momentumColumn rows) s
        = pctChangeList 10 (seriesOf s rows)) := by
  refine ⟨fun p m => rollingMeanAt_congr p m xs ys t hx hxy,
    fun s => emaSpanList_getD_congr s xs ys t hx hxy,
    fun p => rsiAt_congr p xs ys t hx hxy,
    fun fast slow => macdList_getD_congr fast slow xs ys t hx hxy,
    fun fast slow sg => macdSignalList_getD_congr fast slow sg xs ys t hx hxy,
    fun p m => rollingVarAt_congr p m xs ys t hx hxy,
    fun kp => stochKAt_congr kp xs ys highs highs2 lows lows2 t hx hxy hh hh2
      hl hl2,
    fun kp d => stochDAt_congr kp d xs ys highs highs2 lows lows2 t hx hxy hh
      hh2 hl hl2,
    fun p => pctChangeAt_congr p xs ys t hx hxy,
    fun rows s p =>
      groupbyTransform_restrict none _ (length_rollingMeanList p 1) rows s,
    ?_,
    fun rows s sq =>
      ⟨groupbyTransform_restrict none _ (length_rollingMeanList 20 1) rows s,
       groupbyTransform_restrict none _ (length_rollingStdList sq 20 1) rows s,
       ?_⟩,
    fun rows s =>
      groupbyTransform_restrict none _ (length_pctChangeList 10) rows s⟩
  · intro rows s fast slow
    rw [macdColumn, restrictCol_zipWith _ s rows _ _
      (by rw [emaColumn, length_groupbyTransform])
      (by rw [emaColumn, length_groupbyTransform]),
      emaColumn, emaColumn,
      groupbyTransform_restrict 0 _ (length_emaSpanList fast) rows s,
      groupbyTransform_restrict 0 _ (length_emaSpanList slow) rows s,
      macdList]
  · rw [bbUpperColumn, restrictCol_zipWith _ s rows _ _
      (by rw [bbMiddleColumn, length_groupbyTransform])
      (by rw [bbStdColumn, length_groupbyTransform]),
      bbMiddleColumn, bbStdColumn,
      groupbyTransform_restrict none _ (length_rollingMeanList 20 1) rows s,
      groupbyTransform_restrict none _ (length_rollingStdList sq 20 1) rows s,
      bbUpperList]

/-- Witness for C2 amended: appending a row to the series `[1, 2]`
(and to its high/low companions) leaves every indicator value at row 1
unchanged. -/
theorem claim_C2_amended_witness :
    rollingMeanAt 2 1 [1, 2, 3] 1 = rollingMeanAt 2 1 [1, 2] 1 ∧
    rsiAt 2 [1, 2, 3] 1 = rsiAt 2 [1, 2] 1 ∧
    (macdSignalList 1 3 3 [1, 2, 3]).getD 1 0
      = (macdSignalList 1 3 3 [1, 2]).getD 1 0 ∧
    stochDAt 2 1 [1, 2, 3] [2, 3, 4] [0, 1, 1] 1
      = stochDAt 2 1 [1, 2] [2, 3] [0, 1] 1 :=
  ⟨(claim_C2_amended [1, 2] [1, 2, 3] [2, 3] [2, 3, 4] [0, 1] [0, 1, 1] 1
      (by simp) rfl (by simp) rfl (by simp) rfl).1 2 1,
   (claim_C2_amended [1, 2] [1, 2, 3] [2, 3] [2, 3, 4] [0, 1] [0, 1, 1] 1
      (by simp) rfl (by simp) rfl (by simp) rfl).2.2.1 2,
   (claim_C2_amended [1, 2] [1, 2, 3] [2, 3] [2, 3, 4] [0, 1] [0, 1, 1] 1
      (by simp) rfl (by simp) rfl (by simp) rfl).2.2.2.2.1 1 3 3,
   (claim_C2_amended [1, 2] [1, 2, 3] [2, 3] [2, 3, 4] [0, 1] [0, 1, 1] 1
      (by simp) rfl (by simp) rfl (by simp) rfl).2.2.2.2.2.2.2.1 2 1⟩

/-! ### Single-instrument tables and the target/clean pipeline -/

lemma seriesOf_const (s : String) (closes : List ℚ) :
    seriesOf s (closes.map (fun c => PRow.mk s c)) = closes := by
  have hall : ∀ r ∈ closes.map (fun c => PRow.mk s c),
      decide (r.symbol = s) = true := by
    intro r hr
    rw [List.mem_map] at hr
    obtain ⟨c, _, rfl⟩ := hr
    simp
  rw [seriesOf, List.filter_eq_self.mpr hall, List.map_map]
  show List.map id closes = closes
  exact List.map_id closes

lemma restrictCol_all {α : Type} (s : String) : ∀ (rows : List PRow)
    (col : List α), (∀ r ∈ rows, r.symbol = s) → col.length = rows.length →
    restrictCol rows col s = col
  | [], [], _, _ => rfl
  | [], c :: col, _, hlen => by simp at hlen
  | r :: rows, [], _, hlen => by simp at hlen
  | r :: rows, c :: col, hall, hlen => by
    rw [restrictCol_cons, if_pos (hall r (List.mem_cons_self r rows)),
      restrictCol_all s rows col
        (fun x hx => hall x (List.mem_cons_of_mem r hx)) (by simpa using hlen)]

lemma gbt_single {α : Type} (dflt : α) (f : List ℚ → List α)
    (hf : ∀ l, (f l).length = l.length) (s : String) (closes : List ℚ) :
    groupbyTransform dflt f (closes.map (fun c => PRow.mk s c)) = f closes := by
  have h1 := groupbyTransform_restrict dflt f hf
    (closes.map (fun c => PRow.mk s c)) s
  rw [seriesOf_const] at h1
  have hall : ∀ r ∈ closes.map (fun c => PRow.mk s c), r.symbol = s := by
    intro r hr
    rw [List.mem_map] at hr
    obtain ⟨c, _, rfl⟩ := hr
    rfl
  rw [restrictCol_all s _ _ hall
    (by rw [length_groupbyTransform, List.length_map])] at h1
  exact h1

lemma closeColumn_const (s : String) (closes : List ℚ) :
    closeColumn (closes.map (fun c => PRow.mk s c)) = closes := by
  rw [closeColumn, List.map_map]
  show List.map id closes = closes
  exact List.map_id closes

lemma length_returnColumn (h : Nat) (rows : List PRow) :
    (returnColumn h rows).length = rows.length := by
  rw [returnColumn, List.length_zipWith, futureColumn, length_groupbyTransform,
    length_closeColumn]
  omega

/-- On a one-instrument table the `return_{h}d` cell at row `t` is
`(close_{t+h} - close_t) / close_t` when row `t + h` exists and null on
the last `h` rows. -/
lemma returnColumn_single (h : Nat) (closes : List ℚ) (t : Nat)
    (ht : t < closes.length) :
    (returnColumn h (closes.map (fun c => PRow.mk "A" c))).getD t none
      = if t + h < closes.length
        then some ((closes.getD (t + h) 0 - closes.getD t 0)
          / closes.getD t 0)
        else none := by
  have hfc : futureColumn h (closes.map (fun c => PRow.mk "A" c))
      = shiftNegList h closes := by
    rw [futureColumn]
    exact gbt_single none _ (length_shiftNegList h) "A" closes
  rw [returnColumn, hfc, closeColumn_const,
    getD_zipWith _ _ _ t none 0 none
      (by rw [length_shiftNegList]; exact ht) ht,
    shiftNegList, getD_map_range _ _ t _ ht]
  by_cases hth : t + h < closes.length
  · rw [if_pos hth, if_pos hth]
    rfl
  · rw [if_neg hth, if_neg hth]
    rfl

lemma length_targetTable (h : Nat) (closes : List ℚ) :
    (targetTable h closes).length = closes.length := by
  simp [targetTable]

lemma targetTable_getD (h : Nat) (closes : List ℚ) (t : Nat)
    (ht : t < closes.length) :
    (targetTable h closes).getD t default =
      ⟨"A", t, some 1, some 1, some 1, some (closes.getD t 0), some 1,
        [(returnColumn h (closes.map (fun c => PRow.mk "A" c))).getD t none]⟩ := by
  rw [targetTable, getD_map_range _ _ t _ ht]

lemma targetTable_cells (h : Nat) (closes : List ℚ) (i : Nat)
    (hi : i < closes.length) :
    ((targetTable h closes).take (i + 1)).map (fun r => r.tech.getD 0 none)
      = (List.range (i + 1)).map
          (fun t => (returnColumn h
            (closes.map (fun c => PRow.mk "A" c))).getD t none) := by
  rw [targetTable, ← List.map_take, List.take_range,
    min_eq_left (by omega), List.map_map]
  rfl

lemma ffillRows_raw : ∀ (rows : List CRow) (lasts : List (Option ℚ)) (i : Nat),
    ((ffillRows lasts rows).getD i default).symbol
        = ((rows.getD i default)).symbol ∧
    ((ffillRows lasts rows).getD i default).date
        = ((rows.getD i default)).date ∧
    ((ffillRows lasts rows).getD i default).opn
        = ((rows.getD i default)).opn ∧
    ((ffillRows lasts rows).getD i default).high
        = ((rows.getD i default)).high ∧
    ((ffillRows lasts rows).getD i default).low
        = ((rows.getD i default)).low ∧
    ((ffillRows lasts rows).getD i default).close
        = ((rows.getD i default)).close ∧
    ((ffillRows lasts rows).getD i default).volume
        = ((rows.getD i default)).volume
  | [], _, i => ⟨rfl, rfl, rfl, rfl, rfl, rfl, rfl⟩
  | r :: rest, lasts, 0 => ⟨rfl, rfl, rfl, rfl, rfl, rfl, rfl⟩
  | r :: rest, lasts, i + 1 => by
    rw [ffillRows, List.getD_cons_succ, List.getD_cons_succ]
    exact ffillRows_raw rest _ i

lemma ffillRows_tech_length : ∀ (rows : List CRow) (lasts : List (Option ℚ))
    (i : Nat),
    ((ffillRows lasts rows).getD i default).tech.length
      = ((rows.getD i default)).tech.length
  | [], _, i => rfl
  | r :: rest, lasts, 0 => length_fillRow lasts r.tech
  | r :: rest, lasts, i + 1 => by
    rw [ffillRows, List.getD_cons_succ, List.getD_cons_succ]
    exact ffillRows_tech_length rest _ i

/-- Folding `fillStep` over the first `i + 1` cells of a column that
holds present values at indices below `k` and nulls from `k` on gives
the cell at `min i (k - 1)` — the most recent present value. -/
lemma foldl_fillStep_map_range (rv : Nat → Option ℚ) (k : Nat)
    (hsome : ∀ t, t < k → (rv t).isSome)
    (hnone : ∀ t, k ≤ t → rv t = none) (hk : 1 ≤ k) :
    ∀ i, ((List.range (i + 1)).map rv).foldl fillStep none
      = rv (min i (k - 1))
  | 0 => by
    obtain ⟨v, hv⟩ := Option.isSome_iff_exists.mp (hsome 0 hk)
    rw [List.range_succ, List.range_zero, List.nil_append, List.map_cons,
      List.map_nil, List.foldl_cons, List.foldl_nil,
      show min 0 (k - 1) = 0 from by omega, hv]
    rfl
  | i + 1 => by
    rw [List.range_succ, List.map_append, List.foldl_append,
      foldl_fillStep_map_range rv k hsome hnone hk i, List.map_cons,
      List.map_nil, List.foldl_cons, List.foldl_nil]
    by_cases hik : i + 1 < k
    · obtain ⟨v, hv⟩ := Option.isSome_iff_exists.mp (hsome (i + 1) hik)
      rw [show min (i + 1) (k - 1) = i + 1 from by omega, hv]
      rfl
    · rw [hnone (i + 1) (by omega)]
      show rv (min i (k - 1)) = rv (min (i + 1) (k - 1))
      congr 1
      omega

/-- C10 (implicit claim): the forward fill of `clean_data` also applies
to target columns, so the trailing `h` null `return_{h}d` cells of an
instrument group are replaced by the most recent non-null target value
and the rows survive the final null-dropping step: cleaning the target
table of a positive close series keeps every row, and each of the last
`h` rows carries the (non-null) return value of row `n - h - 1`. -/
theorem claim_C10 (closes : List ℚ) (h : Nat)
    (h0 : 0 < h) (hlen : h < closes.length) (hpos : ∀ c ∈ closes, 0 < c) :
    (cleanData (targetTable h closes)).length = closes.length ∧
    (∀ t, closes.length - h ≤ t → t < closes.length →
      ((cleanData (targetTable h closes)).getD t default).tech.getD 0 none
        = (returnColumn h (closes.map (fun c => PRow.mk "A" c))).getD
            (closes.length - h - 1) none) ∧
    ((returnColumn h (closes.map (fun c => PRow.mk "A" c))).getD
        (closes.length - h - 1) none).isSome := by
  have hposD : ∀ t, t < closes.length → 0 < closes.getD t 0 := by
    intro t ht
    rw [List.getD_eq_getElem _ _ ht]
    exact hpos _ (closes.getElem_mem ht)
  have hmem : ∀ r ∈ targetTable h closes, ∃ t, t < closes.length ∧
      r = ⟨"A", t, some 1, some 1, some 1, some (closes.getD t 0), some 1,
        [(returnColumn h (closes.map (fun c => PRow.mk "A" c))).getD t none]⟩ := by
    intro r hr
    rw [targetTable, List.mem_map] at hr
    obtain ⟨t, htm, rfl⟩ := hr
    exact ⟨t, by simpa using htm, rfl⟩
  have hfs : filterStage (targetTable h closes) = targetTable h closes := by
    have h1 : ∀ r ∈ targetTable h closes, decide (closeValid r) = true := by
      intro r hr
      obtain ⟨t, ht, rfl⟩ := hmem r hr
      simpa [closeValid] using hposD t ht
    have h2 : ∀ r ∈ (targetTable h closes).filter
        (fun r => decide (closeValid r)), decide (volumeValid r) = true := by
      intro r hr
      rw [List.mem_filter] at hr
      obtain ⟨t, ht, rfl⟩ := hmem r hr.1
      simp [volumeValid]
    rw [filterStage, List.filter_eq_self.mpr h2, List.filter_eq_self.mpr h1]
  have htech1 : ∀ r ∈ targetTable h closes, 0 < r.tech.length := by
    intro r hr
    obtain ⟨t, _, rfl⟩ := hmem r hr
    simp
  set rv : Nat → Option ℚ := fun t =>
    (returnColumn h (closes.map (fun c => PRow.mk "A" c))).getD t none with hrv
  have hsome : ∀ t, t < closes.length - h → (rv t).isSome := by
    intro t ht
    show ((returnColumn h
      (closes.map (fun c => PRow.mk "A" c))).getD t none).isSome = true
    rw [returnColumn_single h closes t (by omega), if_pos (by omega)]
    rfl
  have hnone : ∀ t, closes.length - h ≤ t → rv t = none := by
    intro t ht
    show (returnColumn h
      (closes.map (fun c => PRow.mk "A" c))).getD t none = none
    by_cases htn : t < closes.length
    · rw [returnColumn_single h closes t htn, if_neg (by omega)]
    · exact List.getD_eq_default _ _
        (by rw [length_returnColumn, List.length_map]; omega)
  have hcell : ∀ i, i < closes.length →
      ((ffillRows [] (targetTable h closes)).getD i default).tech.getD 0 none
        = rv (min i (closes.length - h - 1)) := by
    intro i hi
    rw [ffill_cell (targetTable h closes) [] i 0
        (by rw [length_targetTable]; exact hi) htech1]
    show (((targetTable h closes).take (i + 1)).map
        (fun r => r.tech.getD 0 none)).foldl fillStep none
      = rv (min i (closes.length - h - 1))
    rw [targetTable_cells h closes i hi, ← hrv]
    exact foldl_fillStep_map_range rv (closes.length - h) hsome hnone
      (by omega) i
  have hcomplete : ∀ r2 ∈ ffillRows [] (targetTable h closes),
      rowComplete r2 := by
    intro r2 hr2
    rw [List.mem_iff_getElem] at hr2
    obtain ⟨i, hil, hieq⟩ := hr2
    have hin : i < closes.length := by
      have h3 := hil
      rw [length_ffillRows, length_targetTable] at h3
      exact h3
    have hgetD : (ffillRows [] (targetTable h closes)).getD i default = r2 := by
      rw [List.getD_eq_getElem _ _ hil]
      exact hieq
    obtain ⟨hsym, hdate, hopn, hhigh, hlow, hclose, hvol⟩ :=
      ffillRows_raw (targetTable h closes) [] i
    rw [hgetD, targetTable_getD h closes i hin] at hopn hhigh hlow hclose hvol
    have htl : r2.tech.length = 1 := by
      have hteq := ffillRows_tech_length (targetTable h closes) [] i
      rw [hgetD, targetTable_getD h closes i hin] at hteq
      simpa using hteq
    have hcv : (r2.tech.getD 0 none).isSome := by
      have hc := hcell i hin
      rw [hgetD] at hc
      rw [hc]
      by_cases him : i < closes.length - h
      · rw [Nat.min_eq_left (by omega)]
        exact hsome i him
      · rw [Nat.min_eq_right (by omega)]
        exact hsome (closes.length - h - 1) (by omega)
    refine ⟨by rw [hopn]; rfl, by rw [hhigh]; rfl, by rw [hlow]; rfl,
      by rw [hclose]; rfl, by rw [hvol]; rfl, ?_⟩
    intro c hcmem
    obtain ⟨a, ha⟩ := List.length_eq_one.mp htl
    rw [ha] at hcmem
    rw [List.mem_singleton.mp hcmem]
    have haa : a = r2.tech.getD 0 none := by
      rw [ha]
      rfl
    rw [haa]
    exact hcv
  have hclean : cleanData (targetTable h closes)
      = ffillRows [] (targetTable h closes) := by
    rw [cleanData, hfs, List.filter_eq_self.mpr
      (fun r hr => decide_eq_true (hcomplete r hr))]
  refine ⟨?_, ?_, ?_⟩
  · rw [hclean, length_ffillRows, length_targetTable]
  · intro t hge hlt
    rw [hclean, hcell t hlt, Nat.min_eq_right (by omega)]
  · exact hsome (closes.length - h - 1) (by omega)

/-- Witness for C10 on `close = [1, 2, 4]` with horizon 1: all three
rows survive cleaning and the last row's target cell carries the
copied return of row 1, which is non-null. -/
theorem claim_C10_witness :
    (cleanData (targetTable 1 [1, 2, 4])).length = ([1, 2, 4] : List ℚ).length ∧
    ((cleanData (targetTable 1 [1, 2, 4])).getD 2 default).tech.getD 0 none
      = (returnColumn 1 ([(1 : ℚ), 2, 4].map (fun c => PRow.mk "A" c))).getD
          1 none ∧
    ((returnColumn 1 ([(1 : ℚ), 2, 4].map (fun c => PRow.mk "A" c))).getD
        1 none).isSome :=
  ⟨(claim_C10 [1, 2, 4] 1 (by omega) (by simp) (by
      intro c hc
      simp at hc
      rcases hc with rfl | rfl | rfl <;> norm_num)).1,
   (claim_C10 [1, 2, 4] 1 (by omega) (by simp) (by
      intro c hc
      simp at hc
      rcases hc with rfl | rfl | rfl <;> norm_num)).2.1 2 (by simp) (by simp),
   (claim_C10 [1, 2, 4] 1 (by omega) (by simp) (by
      intro c hc
      simp at hc
      rcases hc with rfl | rfl | rfl <;> norm_num)).2.2⟩

end CryptoPredict
